import Mathlib

set_option maxRecDepth 20000

/-!
Shallow embedding of `src/buddy.c`, a physical-page buddy allocator.

Modelling conventions:
* Machine `int` values and addresses become `Int` (no overflow occurs for the
  bounded inputs the allocator manages, `MAX_PAGES = 32768` pages).
* The global allocator state (`base_addr`, `total_pages`, `free_lists`,
  `page_rank_map`, `page_allocated`) becomes an explicit `BuddyState` record
  threaded through every operation; each C function returns its result paired
  with the successor state.
* The intrusive singly-linked free lists (a `next` pointer stored in the first
  page of each free block) become `List Int` of block page-indices per rank;
  a stored pointer `page_addr(idx)` is represented by `idx` itself, and
  `page_index` of a stored pointer is the identity on that representation.
* C `while` loops become structural recursion on an explicit fuel argument
  chosen at each call site to dominate the loop's iteration count, so that all
  definitions reduce by `rfl`/`decide`.
* C integer division truncates toward zero while Lean's `Int` `/` and `%` are
  Euclidean; every division/modulus below is evaluated only behind guards that
  make the dividend nonnegative (the region check precedes `page_index`), where
  the two semantics coincide.
* `buddy.h` is not among the sources. Modelled from the spec: `OK` is the
  success result, `InvalidArgument` is `-EINVAL` and `OutOfMemory` is
  `-ENOSPC` with the standard errno values 22 and 28; `ERR_PTR` (an error code
  smuggled through a pointer return) is modelled by `Except Int Int`, error
  code or returned address.
-/

def MAX_RANK : Nat := 16

def PAGE_SIZE : Int := 4096

def MAX_PAGES : Nat := 32768

/-- Modelled from the spec: success result code (`OK` in the missing `buddy.h`). -/
def OK : Int := 0

/-- Modelled from the spec: `InvalidArgument` errno value (`EINVAL`, 22). -/
def EINVAL : Int := 22

/-- Modelled from the spec: `OutOfMemory` errno value (`ENOSPC`, 28). -/
def ENOSPC : Int := 28

/-- The global mutable state of `buddy.c`: `base_addr`, `total_pages`, the
per-rank intrusive free lists (as lists of block page-indices), and the two
flat per-page side tables `page_rank_map` and `page_allocated`. -/
structure BuddyState where
  baseAddr : Int
  totalPages : Int
  freeLists : Nat → List Int
  pageRank : Int → Nat
  pageAllocated : Int → Bool

/-- A concrete all-zero pre-initialization state (C zero-initialized globals). -/
def emptyState : BuddyState :=
  { baseAddr := 0, totalPages := 0, freeLists := fun _ => [],
    pageRank := fun _ => 0, pageAllocated := fun _ => false }

/-- C `pages_for_rank`: `1 << (rank - 1)`. -/
def pages_for_rank (rank : Nat) : Nat := 2 ^ (rank - 1)

/-- Shared mutation pattern of `buddy.c` (it appears verbatim in `init_page`,
the split loop of `alloc_pages` and the tail of `return_pages`): link the
block starting at page `idx` at the head of rank `rank`'s free list and mark
all `pages_for_rank rank` of its pages free at that rank. -/
def insertFreeBlock (st : BuddyState) (idx : Int) (rank : Nat) : BuddyState :=
  { st with
    freeLists := fun r => if r = rank then idx :: st.freeLists rank else st.freeLists r
    pageRank := fun i =>
      if idx ≤ i ∧ i < idx + (pages_for_rank rank : Int) then rank else st.pageRank i
    pageAllocated := fun i =>
      if idx ≤ i ∧ i < idx + (pages_for_rank rank : Int) then false else st.pageAllocated i }

/-- Tail of `alloc_pages`: mark every page of the block at `idx` of rank
`rank` allocated at that rank. -/
def markAllocated (st : BuddyState) (idx : Int) (rank : Nat) : BuddyState :=
  { st with
    pageRank := fun i =>
      if idx ≤ i ∧ i < idx + (pages_for_rank rank : Int) then rank else st.pageRank i
    pageAllocated := fun i =>
      if idx ≤ i ∧ i < idx + (pages_for_rank rank : Int) then true else st.pageAllocated i }

/-- C `get_buddy_index`.  All reachable call sites pass `idx ≥ 0`, where the
Euclidean `/` and `%` agree with C's truncating division. -/
def get_buddy_index (idx : Int) (rank : Nat) : Int :=
  let pages : Int := (pages_for_rank rank : Int)
  let block_idx := idx / pages
  if block_idx % 2 = 0 then idx + pages else idx - pages

/-- Inner loop of `init_page`: starting from `rank = MAX_RANK`, decrement the
rank while `pages_for_rank rank > remaining`.  The argument is the rank being
tried, so the recursion is structural. -/
def findInitRank : Nat → Nat → Nat
  | 0, _ => 0
  | rank + 1, remaining =>
    if pages_for_rank (rank + 1) ≤ remaining then rank + 1
    else findInitRank rank remaining

/-- Outer loop of `init_page`: the list of `(index, rank)` blocks emitted by
the greedy largest-first decomposition, in emission order.  Each iteration
advances `idx` by at least one page, so fuel `pgcount` dominates the loop. -/
def initLoop : Nat → Nat → Nat → List (Nat × Nat)
  | 0, _, _ => []
  | fuel + 1, pgcount, idx =>
    if idx < pgcount then
      let rank := findInitRank MAX_RANK (pgcount - idx)
      (idx, rank) :: initLoop fuel pgcount (idx + pages_for_rank rank)
    else []

/-- Body of `init_page`'s emission step: link the block at the head of its
rank's free list and mark its pages free at that rank. -/
def applyInitBlock (st : BuddyState) (b : Nat × Nat) : BuddyState :=
  insertFreeBlock st (b.1 : Int) b.2

/-- C `init_page`: unconditionally installs the region, clears the free lists
(`0..MAX_RANK`) and the side tables for the first `pgcount` pages, then emits
the greedy decomposition.  Note the C code performs no validation of `pgcount`
and no double-initialization check; it always returns `OK`. -/
def initCleared (st : BuddyState) (p : Int) (pgcount : Int) : BuddyState :=
  { baseAddr := p
    totalPages := pgcount
    freeLists := fun r => if r ≤ MAX_RANK then [] else st.freeLists r
    pageRank := fun i => if 0 ≤ i ∧ i < pgcount then 0 else st.pageRank i
    pageAllocated := fun i => if 0 ≤ i ∧ i < pgcount then false else st.pageAllocated i }

def init_page (st : BuddyState) (p : Int) (pgcount : Int) : Int × BuddyState :=
  (OK, List.foldl applyInitBlock (initCleared st p pgcount)
    (initLoop pgcount.toNat pgcount.toNat 0))

/-- Scan loop of `alloc_pages`: `while (current_rank <= MAX_RANK &&
free_lists[current_rank] == NULL) current_rank++`.  Fuel `MAX_RANK + 1`
dominates the at most `MAX_RANK` increments from any start `cur ≥ 1`. -/
def scanLoop (st : BuddyState) : Nat → Nat → Nat
  | 0, cur => cur
  | fuel + 1, cur =>
    if cur ≤ MAX_RANK ∧ st.freeLists cur = [] then scanLoop st fuel (cur + 1) else cur

/-- Split loop of `alloc_pages`: `while (current_rank > rank)` decrement the
current rank, insert the higher-address half (the buddy at
`idx + pages_for_rank current_rank`) at the head of the lower rank's free list
and mark its pages free at that rank; structural recursion on the current
rank itself. -/
def splitLoop (rank : Nat) : Nat → Int → BuddyState → BuddyState
  | 0, _, st => st
  | cur + 1, idx, st =>
    if rank < cur + 1 then
      splitLoop rank cur idx (insertFreeBlock st (idx + (pages_for_rank cur : Int)) cur)
    else st

/-- C `alloc_pages`.  The `[]` branch of the match is unreachable: the scan
loop only stops at `current_rank ≤ MAX_RANK` on a non-empty list (in C the
head is dereferenced unconditionally there). -/
def alloc_pages (st : BuddyState) (rank : Int) : Except Int Int × BuddyState :=
  if rank < 1 ∨ rank > (MAX_RANK : Int) then (Except.error (-EINVAL), st)
  else
    let r := rank.toNat
    let current_rank := scanLoop st (MAX_RANK + 1) r
    if current_rank > MAX_RANK then (Except.error (-ENOSPC), st)
    else
      match st.freeLists current_rank with
      | [] => (Except.error (-ENOSPC), st)
      | idx :: rest =>
        let st1 : BuddyState :=
          { st with freeLists := fun k => if k = current_rank then rest else st.freeLists k }
        let st2 := splitLoop r current_rank idx st1
        (Except.ok (st.baseAddr + idx * PAGE_SIZE), markAllocated st2 idx r)

/-- Buddy-removal walk of `return_pages`: remove the first list entry whose
page index equals `buddy_idx`, reporting whether one was found. -/
def removeBuddy : List Int → Int → Bool × List Int
  | [], _ => (false, [])
  | x :: xs, b =>
    if x = b then (true, xs)
    else
      let r := removeBuddy xs b
      (r.1, x :: r.2)

/-- Merge loop of `return_pages` (`while (rank < MAX_RANK)`), returning the
final block index, final rank and the state with merged buddies unlinked.
Each iteration increments `rank`, so fuel `MAX_RANK` dominates the loop for
any start `rank ≥ 1`. -/
def mergeLoop : Nat → BuddyState → Int → Nat → Int × Nat × BuddyState
  | 0, st, idx, rank => (idx, rank, st)
  | fuel + 1, st, idx, rank =>
    if rank < MAX_RANK then
      let buddy_idx := get_buddy_index idx rank
      if buddy_idx < 0 ∨ buddy_idx ≥ st.totalPages then (idx, rank, st)
      else if buddy_idx + (pages_for_rank rank : Int) > st.totalPages then (idx, rank, st)
      else if st.pageAllocated buddy_idx = true ∨ st.pageRank buddy_idx ≠ rank then (idx, rank, st)
      else
        let rem := removeBuddy (st.freeLists rank) buddy_idx
        if rem.1 = false then (idx, rank, st)
        else
          let st' : BuddyState :=
            { st with freeLists := fun k => if k = rank then rem.2 else st.freeLists k }
          mergeLoop fuel st' (if buddy_idx < idx then buddy_idx else idx) (rank + 1)
    else (idx, rank, st)

/-- C `return_pages`: validation (region bounds, index range, page alignment,
allocated flag, stored rank range), then the buddy merge loop, then insertion
of the resulting block at the head of its rank's free list with its pages
marked free. -/
def return_pages (st : BuddyState) (p : Int) : Int × BuddyState :=
  if p = 0 ∨ p < st.baseAddr ∨ p ≥ st.baseAddr + st.totalPages * PAGE_SIZE then (-EINVAL, st)
  else
    let idx := (p - st.baseAddr) / PAGE_SIZE
    if idx < 0 ∨ idx ≥ st.totalPages then (-EINVAL, st)
    else if (p - st.baseAddr) % PAGE_SIZE ≠ 0 then (-EINVAL, st)
    else if st.pageAllocated idx ≠ true then (-EINVAL, st)
    else
      let rank := st.pageRank idx
      if rank < 1 ∨ rank > MAX_RANK then (-EINVAL, st)
      else
        let m := mergeLoop MAX_RANK st idx rank
        (OK, insertFreeBlock m.2.2 m.1 m.2.1)

/-- C `query_ranks`: region validation, then a pure read of `page_rank_map`. -/
def query_ranks (st : BuddyState) (p : Int) : Int × BuddyState :=
  if p = 0 ∨ p < st.baseAddr ∨ p ≥ st.baseAddr + st.totalPages * PAGE_SIZE then (-EINVAL, st)
  else
    let idx := (p - st.baseAddr) / PAGE_SIZE
    if idx < 0 ∨ idx ≥ st.totalPages then (-EINVAL, st)
    else ((st.pageRank idx : Int), st)

/-- Counting walk of `query_page_counts` over a free list. -/
def countLoop : List Int → Nat
  | [] => 0
  | _ :: xs => countLoop xs + 1

/-- C `query_page_counts`: rank validation, then a pure count of the rank's
free list. -/
def query_page_counts (st : BuddyState) (rank : Int) : Int × BuddyState :=
  if rank < 1 ∨ rank > (MAX_RANK : Int) then (-EINVAL, st)
  else ((countLoop (st.freeLists rank.toNat) : Int), st)

/-! Concrete merge scenario of the spec: `init(base, 4)` with `base = 65536`,
four `alloc(1)` calls, then frees in the order 1, 0, 3, 2. -/

def msInit : BuddyState := (init_page emptyState 65536 4).snd

def msA1 : Except Int Int × BuddyState := alloc_pages msInit 1

def msA2 : Except Int Int × BuddyState := alloc_pages msA1.snd 1

def msA3 : Except Int Int × BuddyState := alloc_pages msA2.snd 1

def msA4 : Except Int Int × BuddyState := alloc_pages msA3.snd 1

def msF1 : Int × BuddyState := return_pages msA4.snd 69632

def msF2 : Int × BuddyState := return_pages msF1.snd 65536

def msF3 : Int × BuddyState := return_pages msF2.snd 77824

def msF4 : Int × BuddyState := return_pages msF3.snd 73728

/-- Modelled from the spec: the multiset of initial blocks "a binary
representation of `page_count` would produce (each set bit in `page_count`,
from most- to least-significant, yields one initial block)": repeatedly take
the most significant set bit `Nat.log2 n` (a rank of `log2 n + 1`) and remove
it.  For `page_count ≤ MAX_PAGES = 2 ^ 15` no capping at `MAX_RANK` occurs. -/
def bitRanks : Nat → List Nat
  | 0 => []
  | n + 1 => (Nat.log2 (n + 1) + 1) :: bitRanks (n + 1 - 2 ^ Nat.log2 (n + 1))
termination_by n => n
decreasing_by
  have h := Nat.one_le_two_pow (n := Nat.log2 (n + 1))
  omega

/-- Disjointness of two free blocks, each given as (start index, rank): one
ends at or before the other starts. -/
def blockDisj (b c : Int × Nat) : Prop :=
  b.1 + (pages_for_rank b.2 : Int) ≤ c.1 ∨ c.1 + (pages_for_rank c.2 : Int) ≤ b.1

instance : ∀ b c, Decidable (blockDisj b c) := fun b c => by
  unfold blockDisj; infer_instance

/-- All blocks linked on the free lists of ranks `1..n`, tagged with their
rank (rank `n` first; order is irrelevant, multiplicity is not). -/
def allBlocksAux (st : BuddyState) : Nat → List (Int × Nat)
  | 0 => []
  | n + 1 => (st.freeLists (n + 1)).map (fun x => (x, n + 1)) ++ allBlocksAux st n

def allBlocks (st : BuddyState) : List (Int × Nat) := allBlocksAux st MAX_RANK

/-- Total number of pages held on the free lists. -/
def freePages (st : BuddyState) : Nat :=
  ((allBlocks st).map (fun b => pages_for_rank b.2)).sum

/-- A free block is in bounds and all of its pages carry a cleared
allocated flag. -/
def blockOK (st : BuddyState) (b : Int × Nat) : Prop :=
  0 ≤ b.1 ∧ b.1 + (pages_for_rank b.2 : Int) ≤ st.totalPages ∧
  ∀ k < pages_for_rank b.2, st.pageAllocated (b.1 + (k : Int)) = false

instance (st : BuddyState) : ∀ b, Decidable (blockOK st b) := fun b => by
  unfold blockOK; infer_instance

/-- The allocator's free-structure invariant: every linked block is sound and
no two linked blocks overlap. -/
def BuddyInv (st : BuddyState) : Prop :=
  (∀ b ∈ allBlocks st, blockOK st b) ∧ (allBlocks st).Pairwise blockDisj

instance (st : BuddyState) : Decidable (BuddyInv st) := by
  unfold BuddyInv; infer_instance

/-- Every managed page's `page_rank_map` entry lies in `[1, MAX_RANK]`
(pages indexed `0 ≤ k < total_pages`). -/
def rankMapOK (st : BuddyState) : Prop :=
  ∀ k < st.totalPages.toNat,
    1 ≤ st.pageRank ((k : Nat) : Int) ∧ st.pageRank ((k : Nat) : Int) ≤ MAX_RANK

instance (st : BuddyState) : Decidable (rankMapOK st) := by
  unfold rankMapOK; infer_instance

/-- Iterated `alloc_pages(1)`: the list of the `k` results in order, and the
final state. -/
def allocRun : BuddyState → Nat → List (Except Int Int) × BuddyState
  | st, 0 => ([], st)
  | st, k + 1 =>
    let res := alloc_pages st 1
    let rest := allocRun res.snd k
    (res.fst :: rest.fst, rest.snd)

/-- Well-formedness of the free-list registry, an invariant of reachable
states used as a hypothesis for allocation postconditions: every block linked
at rank `r` is in bounds and its index is aligned to the block's own size. -/
def freeListsWF (st : BuddyState) : Prop :=
  ∀ r < MAX_RANK + 1, 1 ≤ r → ∀ idx ∈ st.freeLists r,
    0 ≤ idx ∧ idx + (pages_for_rank r : Int) ≤ st.totalPages ∧
    idx % (pages_for_rank r : Int) = 0

instance (st : BuddyState) : Decidable (freeListsWF st) := by
  unfold freeListsWF; infer_instance

/-- State after `init(134217728, 4)`; the base address is aligned to the
largest block size `pages_for_rank MAX_RANK * PAGE_SIZE = 2 ^ 27`. -/
def wfInit : BuddyState := (init_page emptyState 134217728 4).snd

/-- State after `init(65536, 4)` followed by `alloc(2)`: one allocated rank-2
block covering pages [0,2), whose page 1 is an interior (non-starting) page. -/
def bsAlloc2 : Except Int Int × BuddyState := alloc_pages msInit 2

/-- C1: deallocation merge scenario.  After `init(65536, 4)`, four `alloc(1)`
calls return pages 0, 1, 2, 3 (addresses 65536, 69632, 73728, 77824); freeing
page 1 then page 0 succeeds and leaves a free rank-2 block covering pages
[0,2) (block 0 on rank 2's free list, both pages marked rank 2 and free);
freeing pages 3 and 2 then succeeds and fully merges the region into one
rank-3 block: `free_count(3) = 1` and `free_count(1) = free_count(2) = 0`. -/
theorem free_merge_scenario :
    msA1.fst = Except.ok 65536 ∧ msA2.fst = Except.ok 69632 ∧
    msA3.fst = Except.ok 73728 ∧ msA4.fst = Except.ok 77824 ∧
    msF1.fst = OK ∧ msF2.fst = OK ∧
    msF2.snd.freeLists 2 = [0] ∧
    msF2.snd.pageRank 0 = 2 ∧ msF2.snd.pageRank 1 = 2 ∧
    msF2.snd.pageAllocated 0 = false ∧ msF2.snd.pageAllocated 1 = false ∧
    msF3.fst = OK ∧ msF4.fst = OK ∧
    (query_page_counts msF4.snd 3).fst = 1 ∧
    (query_page_counts msF4.snd 1).fst = 0 ∧
    (query_page_counts msF4.snd 2).fst = 0 :=
  ⟨rfl, rfl, rfl, rfl, rfl, rfl, rfl, rfl, rfl, rfl, rfl, rfl, rfl, rfl, rfl, rfl⟩

theorem countLoop_eq_length (l : List Int) : countLoop l = l.length := by
  induction l with
  | nil => rfl
  | cons x xs ih => simpa [countLoop] using ih

theorem foldl_applyInitBlock_base (bs : List (Nat × Nat)) :
    ∀ st : BuddyState, (List.foldl applyInitBlock st bs).baseAddr = st.baseAddr ∧
      (List.foldl applyInitBlock st bs).totalPages = st.totalPages := by
  induction bs with
  | nil => intro st; exact ⟨rfl, rfl⟩
  | cons b bs ih => intro st; simpa [List.foldl, applyInitBlock] using ih (applyInitBlock st b)

/-- C3 counterexample: `init_page` performs none of the claimed validation.
With `page_count = 0` (and even `-3`) it returns `OK` instead of an error, and
a second initialization installing a different region (base 131072 after a
prior region at base 65536) is accepted with `OK` and overwrites the stored
base address rather than being rejected. -/
theorem init_validation_counterexample :
    (init_page emptyState 65536 0).fst = OK ∧
    (init_page emptyState 65536 (-3)).fst = OK ∧
    (init_page (init_page emptyState 65536 4).snd 131072 4).fst = OK ∧
    (init_page (init_page emptyState 65536 4).snd 131072 4).snd.baseAddr = 131072 :=
  ⟨rfl, rfl, rfl, rfl⟩

/-- C3 amended: `init_page` never fails.  For every prior state, base address
and page count (including `page_count ≤ 0`), it returns `OK` and
unconditionally installs the new region, overwriting the previous allocator
state (the stored base address and page count become the new arguments). -/
theorem init_always_ok (st : BuddyState) (p pgcount : Int) :
    (init_page st p pgcount).fst = OK ∧
    (init_page st p pgcount).snd.baseAddr = p ∧
    (init_page st p pgcount).snd.totalPages = pgcount := by
  refine ⟨rfl, ?_, ?_⟩
  · simpa [init_page] using (foldl_applyInitBlock_base
      (initLoop pgcount.toNat pgcount.toNat 0) (initCleared st p pgcount)).1
  · simpa [init_page] using (foldl_applyInitBlock_base
      (initLoop pgcount.toNat pgcount.toNat 0) (initCleared st p pgcount)).2

/-- C8: `query_ranks` and `query_page_counts` never mutate the allocator
state (the returned state is the input state, so repeated calls with the same
argument yield identical results); `query_page_counts` returns `-EINVAL` for
a rank outside `[1, MAX_RANK]` and otherwise the number of blocks linked in
that rank's free list. -/
theorem query_purity (st : BuddyState) (p rank : Int) :
    (query_ranks st p).snd = st ∧
    (query_page_counts st rank).snd = st ∧
    (rank < 1 ∨ rank > (MAX_RANK : Int) → (query_page_counts st rank).fst = -EINVAL) ∧
    (1 ≤ rank → rank ≤ (MAX_RANK : Int) →
      (query_page_counts st rank).fst = ((st.freeLists rank.toNat).length : Int)) := by
  refine ⟨?_, ?_, ?_, ?_⟩
  · simp only [query_ranks]; split_ifs <;> rfl
  · simp only [query_page_counts]; split_ifs <;> rfl
  · intro h; simp only [query_page_counts, if_pos h]
  · intro h1 h2
    have h : ¬(rank < 1 ∨ rank > (MAX_RANK : Int)) := by omega
    simp only [query_page_counts, if_neg h, countLoop_eq_length]

theorem query_purity_witness :
    (query_ranks msInit 65536).snd = msInit ∧
    (query_page_counts msInit 3).snd = msInit ∧
    (query_page_counts msInit 0).fst = -EINVAL ∧
    (query_page_counts msInit 3).fst = ((msInit.freeLists 3).length : Int) :=
  ⟨(query_purity msInit 65536 3).1, (query_purity msInit 65536 3).2.1,
   (query_purity msInit 65536 0).2.2.1 (by decide),
   (query_purity msInit 65536 3).2.2.2 (by decide) (by decide)⟩

/-- C9: `return_pages` accepts every page-aligned in-region address whose page
is marked allocated with a stored rank in `[1, MAX_RANK]` — the code checks
region bounds, page alignment, the allocated flag and the stored rank, but
never that the address is the starting page of its block. -/
theorem return_pages_no_block_start_check (st : BuddyState) (p : Int)
    (h0 : p ≠ 0) (h1 : st.baseAddr ≤ p)
    (h2 : p < st.baseAddr + st.totalPages * PAGE_SIZE)
    (h3 : (p - st.baseAddr) % PAGE_SIZE = 0)
    (h4 : st.pageAllocated ((p - st.baseAddr) / PAGE_SIZE) = true)
    (h5 : 1 ≤ st.pageRank ((p - st.baseAddr) / PAGE_SIZE))
    (h6 : st.pageRank ((p - st.baseAddr) / PAGE_SIZE) ≤ MAX_RANK) :
    (return_pages st p).fst = OK := by
  simp only [PAGE_SIZE, MAX_RANK] at h0 h1 h2 h3 h4 h5 h6
  simp only [return_pages, PAGE_SIZE, MAX_RANK]
  split_ifs with g1 g2 g3 g4 g5
  · exfalso; omega
  · exfalso; omega
  · exact absurd h3 g3
  · exact absurd h4 (by simpa using g4)
  · exfalso; omega
  · rfl

theorem pages_for_rank_pos (r : Nat) : 1 ≤ pages_for_rank r :=
  Nat.one_le_two_pow

theorem pages_for_rank_succ (r : Nat) (h : 1 ≤ r) :
    pages_for_rank (r + 1) = 2 * pages_for_rank r := by
  unfold pages_for_rank
  have hr : r + 1 - 1 = (r - 1) + 1 := by omega
  rw [hr, pow_succ, Nat.mul_comm]

theorem insertFreeBlock_baseAddr (st : BuddyState) (idx : Int) (rank : Nat) :
    (insertFreeBlock st idx rank).baseAddr = st.baseAddr := rfl

theorem insertFreeBlock_totalPages (st : BuddyState) (idx : Int) (rank : Nat) :
    (insertFreeBlock st idx rank).totalPages = st.totalPages := rfl

theorem insertFreeBlock_pageAllocated (st : BuddyState) (idx : Int) (rank : Nat) (i : Int) :
    (insertFreeBlock st idx rank).pageAllocated i =
      if idx ≤ i ∧ i < idx + (pages_for_rank rank : Int) then false
      else st.pageAllocated i := rfl

theorem insertFreeBlock_pageRank (st : BuddyState) (idx : Int) (rank : Nat) (i : Int) :
    (insertFreeBlock st idx rank).pageRank i =
      if idx ≤ i ∧ i < idx + (pages_for_rank rank : Int) then rank
      else st.pageRank i := rfl

theorem insertFreeBlock_freeLists (st : BuddyState) (idx : Int) (rank : Nat) (r : Nat) :
    (insertFreeBlock st idx rank).freeLists r =
      if r = rank then idx :: st.freeLists rank else st.freeLists r := rfl

theorem mergeLoop_preserves (fuel : Nat) :
    ∀ (st : BuddyState) (idx : Int) (rank : Nat),
      (mergeLoop fuel st idx rank).2.2.baseAddr = st.baseAddr ∧
      (mergeLoop fuel st idx rank).2.2.totalPages = st.totalPages ∧
      (mergeLoop fuel st idx rank).2.2.pageRank = st.pageRank ∧
      (mergeLoop fuel st idx rank).2.2.pageAllocated = st.pageAllocated := by
  induction fuel with
  | zero => intro st idx rank; exact ⟨rfl, rfl, rfl, rfl⟩
  | succ fuel ih =>
    intro st idx rank
    simp only [mergeLoop]
    split_ifs <;> first | exact ⟨rfl, rfl, rfl, rfl⟩ | exact ih _ _ _

theorem mergeLoop_contains (fuel : Nat) :
    ∀ (st : BuddyState) (idx j : Int) (rank : Nat),
      1 ≤ rank → idx ≤ j → j < idx + (pages_for_rank rank : Int) →
      1 ≤ (mergeLoop fuel st idx rank).2.1 ∧
      (mergeLoop fuel st idx rank).1 ≤ j ∧
      j < (mergeLoop fuel st idx rank).1 +
        (pages_for_rank (mergeLoop fuel st idx rank).2.1 : Int) := by
  induction fuel with
  | zero => intro st idx j rank h1 h2 h3; exact ⟨h1, h2, h3⟩
  | succ fuel ih =>
    intro st idx j rank h1 h2 h3
    have hpos : (1 : Int) ≤ (pages_for_rank rank : Int) := by
      exact_mod_cast pages_for_rank_pos rank
    have hszI : (pages_for_rank (rank + 1) : Int) = 2 * (pages_for_rank rank : Int) := by
      rw [pages_for_rank_succ rank h1]; push_cast; ring
    have hb : get_buddy_index idx rank = idx + (pages_for_rank rank : Int) ∨
        get_buddy_index idx rank = idx - (pages_for_rank rank : Int) := by
      simp only [get_buddy_index]
      split_ifs with hp
      · exact Or.inl rfl
      · exact Or.inr rfl
    simp only [mergeLoop]
    rcases hb with hb | hb <;> rw [hb] <;> split_ifs <;>
      first
        | exact ⟨h1, h2, h3⟩
        | (exfalso; omega)
        | exact ih _ _ j (rank + 1) (by omega) (by omega) (by omega)

theorem return_pages_no_block_start_check_witness :
    bsAlloc2.fst = Except.ok 65536 ∧
    bsAlloc2.snd.pageAllocated 1 = true ∧ bsAlloc2.snd.pageRank 1 = 2 ∧
    (return_pages bsAlloc2.snd 69632).fst = OK :=
  ⟨rfl, rfl, rfl,
   return_pages_no_block_start_check bsAlloc2.snd 69632 (by decide) (by decide) (by decide)
     (by decide) (by decide) (by decide) (by decide)⟩

theorem return_pages_double (st : BuddyState) (p : Int)
    (hOK : (return_pages st p).fst = OK) :
    (return_pages (return_pages st p).snd p).fst = -EINVAL := by
  simp only [return_pages] at hOK
  split_ifs at hOK with g1 g2 g3 g4 g5
  · exact absurd hOK (by simp [EINVAL, OK])
  · exact absurd hOK (by simp [EINVAL, OK])
  · exact absurd hOK (by simp [EINVAL, OK])
  · exact absurd hOK (by simp [EINVAL, OK])
  · exact absurd hOK (by simp [EINVAL, OK])
  · -- the successful first call: all guards passed
    have hstep : (return_pages st p).snd =
        insertFreeBlock
          (mergeLoop MAX_RANK st ((p - st.baseAddr) / PAGE_SIZE)
            (st.pageRank ((p - st.baseAddr) / PAGE_SIZE))).2.2
          (mergeLoop MAX_RANK st ((p - st.baseAddr) / PAGE_SIZE)
            (st.pageRank ((p - st.baseAddr) / PAGE_SIZE))).1
          (mergeLoop MAX_RANK st ((p - st.baseAddr) / PAGE_SIZE)
            (st.pageRank ((p - st.baseAddr) / PAGE_SIZE))).2.1 := by
      simp only [return_pages]
      rw [if_neg g1, if_neg g2, if_neg g3, if_neg g4, if_neg g5]
    obtain ⟨hB, hT, hR, hA⟩ :=
      mergeLoop_preserves MAX_RANK st ((p - st.baseAddr) / PAGE_SIZE)
        (st.pageRank ((p - st.baseAddr) / PAGE_SIZE))
    have hrk : 1 ≤ st.pageRank ((p - st.baseAddr) / PAGE_SIZE) := by omega
    have hpos : (1 : Int) ≤
        (pages_for_rank (st.pageRank ((p - st.baseAddr) / PAGE_SIZE)) : Int) := by
      exact_mod_cast pages_for_rank_pos _
    have hcont :=
      mergeLoop_contains MAX_RANK st ((p - st.baseAddr) / PAGE_SIZE)
        ((p - st.baseAddr) / PAGE_SIZE) (st.pageRank ((p - st.baseAddr) / PAGE_SIZE))
        hrk le_rfl (by omega)
    rw [hstep]
    have hfalse :
        (insertFreeBlock
          (mergeLoop MAX_RANK st ((p - st.baseAddr) / PAGE_SIZE)
            (st.pageRank ((p - st.baseAddr) / PAGE_SIZE))).2.2
          (mergeLoop MAX_RANK st ((p - st.baseAddr) / PAGE_SIZE)
            (st.pageRank ((p - st.baseAddr) / PAGE_SIZE))).1
          (mergeLoop MAX_RANK st ((p - st.baseAddr) / PAGE_SIZE)
            (st.pageRank ((p - st.baseAddr) / PAGE_SIZE))).2.1).pageAllocated
          ((p - st.baseAddr) / PAGE_SIZE) = false := by
      rw [insertFreeBlock_pageAllocated, if_pos ⟨hcont.2.1, hcont.2.2⟩]
    simp only [return_pages, insertFreeBlock_baseAddr, insertFreeBlock_totalPages, hB, hT]
    rw [if_neg g1, if_neg g2, if_neg g3, if_pos (by simp [hfalse])]

/-- C4: `return_pages` rejects with `-EINVAL` every address outside the
managed region, every in-region address that is not page-aligned, and every
in-region address whose page is not marked allocated (so a second free of the
same address fails); every rejected call returns the input state unchanged —
all validation happens before any mutation. -/
theorem return_pages_rejection (st : BuddyState) (p : Int) :
    ((p = 0 ∨ p < st.baseAddr ∨ p ≥ st.baseAddr + st.totalPages * PAGE_SIZE) →
      return_pages st p = (-EINVAL, st)) ∧
    (st.baseAddr ≤ p → p < st.baseAddr + st.totalPages * PAGE_SIZE →
      (p - st.baseAddr) % PAGE_SIZE ≠ 0 → return_pages st p = (-EINVAL, st)) ∧
    (st.baseAddr ≤ p → p < st.baseAddr + st.totalPages * PAGE_SIZE →
      st.pageAllocated ((p - st.baseAddr) / PAGE_SIZE) = false →
      return_pages st p = (-EINVAL, st)) ∧
    ((return_pages st p).fst ≠ OK → (return_pages st p).snd = st) ∧
    ((return_pages st p).fst = OK →
      (return_pages (return_pages st p).snd p).fst = -EINVAL) := by
  refine ⟨?_, ?_, ?_, ?_, return_pages_double st p⟩
  · intro h
    simp only [return_pages, if_pos h]
  · intro hb1 hb2 hmod
    simp only [return_pages, PAGE_SIZE] at hmod ⊢
    split_ifs <;> rfl
  · intro hb1 hb2 halloc
    simp only [return_pages, PAGE_SIZE] at halloc ⊢
    split_ifs <;> first | rfl | (exfalso; simp_all)
  · simp only [return_pages]
    split_ifs <;> intro h <;> first | rfl | (exact absurd rfl h)

theorem return_pages_rejection_witness :
    return_pages bsAlloc2.snd 999999 = (-EINVAL, bsAlloc2.snd) ∧
    return_pages bsAlloc2.snd 65537 = (-EINVAL, bsAlloc2.snd) ∧
    return_pages bsAlloc2.snd 73728 = (-EINVAL, bsAlloc2.snd) ∧
    (return_pages bsAlloc2.snd 999999).snd = bsAlloc2.snd ∧
    (return_pages (return_pages bsAlloc2.snd 65536).snd 65536).fst = -EINVAL :=
  ⟨(return_pages_rejection bsAlloc2.snd 999999).1 (by decide),
   (return_pages_rejection bsAlloc2.snd 65537).2.1 (by decide) (by decide) (by decide),
   (return_pages_rejection bsAlloc2.snd 73728).2.2.1 (by decide) (by decide) (by decide),
   (return_pages_rejection bsAlloc2.snd 999999).2.2.2.1 (by decide),
   (return_pages_rejection bsAlloc2.snd 65536).2.2.2.2 (by decide)⟩

theorem scanLoop_ge (st : BuddyState) (fuel : Nat) :
    ∀ cur, cur ≤ scanLoop st fuel cur := by
  induction fuel with
  | zero => intro cur; exact le_rfl
  | succ fuel ih =>
    intro cur
    simp only [scanLoop]
    split_ifs with h
    · exact le_trans (by omega) (ih (cur + 1))
    · exact le_rfl

theorem scanLoop_found (st : BuddyState) (fuel : Nat) :
    ∀ cur, MAX_RANK + 1 ≤ cur + fuel → scanLoop st fuel cur ≤ MAX_RANK →
      st.freeLists (scanLoop st fuel cur) ≠ [] := by
  induction fuel with
  | zero =>
    intro cur hf hle
    simp only [scanLoop] at hle
    omega
  | succ fuel ih =>
    intro cur hf hle
    simp only [scanLoop] at hle ⊢
    split_ifs at hle ⊢ with h
    · exact ih (cur + 1) (by omega) hle
    · exact fun hnil => h ⟨hle, hnil⟩

theorem scanLoop_skipped (st : BuddyState) (fuel : Nat) :
    ∀ cur r, cur ≤ r → r < scanLoop st fuel cur → st.freeLists r = [] := by
  induction fuel with
  | zero =>
    intro cur r h1 h2
    simp only [scanLoop] at h2
    omega
  | succ fuel ih =>
    intro cur r h1 h2
    simp only [scanLoop] at h2
    split_ifs at h2 with h
    · rcases Nat.eq_or_lt_of_le h1 with rfl | hlt
      · exact h.2
      · exact ih (cur + 1) r (by omega) h2
    · omega

theorem scanLoop_all_empty (st : BuddyState) (fuel : Nat) :
    ∀ cur, MAX_RANK + 1 ≤ cur + fuel →
      (∀ r, cur ≤ r → r ≤ MAX_RANK → st.freeLists r = []) →
      MAX_RANK < scanLoop st fuel cur := by
  induction fuel with
  | zero =>
    intro cur hf _
    simp only [scanLoop]
    omega
  | succ fuel ih =>
    intro cur hf hall
    simp only [scanLoop]
    split_ifs with h
    · exact ih (cur + 1) (by omega) (fun r h1 h2 => hall r (by omega) h2)
    · by_cases hc : cur ≤ MAX_RANK
      · exact absurd ⟨hc, hall cur le_rfl hc⟩ h
      · omega

/-- C6: `alloc_pages` fails with `-EINVAL` (state unchanged) for every rank
outside `[1, MAX_RANK]`; for a rank in range it fails with `-ENOSPC` exactly
when every free list from the requested rank up to `MAX_RANK` is empty, and
otherwise returns a block address. -/
theorem alloc_error_contract (st : BuddyState) (rank : Int) :
    ((rank < 1 ∨ rank > (MAX_RANK : Int)) →
      alloc_pages st rank = (Except.error (-EINVAL), st)) ∧
    (1 ≤ rank → rank ≤ (MAX_RANK : Int) →
      (((alloc_pages st rank).fst = Except.error (-ENOSPC)) ↔
        (∀ r, rank.toNat ≤ r → r ≤ MAX_RANK → st.freeLists r = [])) ∧
      ((∃ r, rank.toNat ≤ r ∧ r ≤ MAX_RANK ∧ st.freeLists r ≠ []) →
        ∃ a st2, alloc_pages st rank = (Except.ok a, st2))) := by
  constructor
  · intro h
    simp only [alloc_pages, if_pos h]
  · intro h1 h2
    have hvalid : ¬(rank < 1 ∨ rank > (MAX_RANK : Int)) := by omega
    have hge : rank.toNat ≤ scanLoop st (MAX_RANK + 1) rank.toNat :=
      scanLoop_ge st (MAX_RANK + 1) rank.toNat
    by_cases hbig : MAX_RANK < scanLoop st (MAX_RANK + 1) rank.toNat
    · have hall : ∀ r, rank.toNat ≤ r → r ≤ MAX_RANK → st.freeLists r = [] :=
        fun r hr1 hr2 => scanLoop_skipped st (MAX_RANK + 1) rank.toNat r hr1 (by omega)
      have halloc : alloc_pages st rank = (Except.error (-ENOSPC), st) := by
        simp only [alloc_pages, if_neg hvalid, if_pos hbig]
      refine ⟨⟨fun _ => hall, fun _ => by rw [halloc]⟩, ?_⟩
      rintro ⟨r, hr1, hr2, hne⟩
      exact absurd (hall r hr1 hr2) hne
    · push_neg at hbig
      have hne := scanLoop_found st (MAX_RANK + 1) rank.toNat (by omega) hbig
      rcases hl : st.freeLists (scanLoop st (MAX_RANK + 1) rank.toNat) with _ | ⟨idx, rest⟩
      · exact absurd hl hne
      · have halloc : alloc_pages st rank =
            (Except.ok (st.baseAddr + idx * PAGE_SIZE),
             markAllocated
               (splitLoop rank.toNat (scanLoop st (MAX_RANK + 1) rank.toNat) idx
                 { st with freeLists := fun k =>
                     if k = scanLoop st (MAX_RANK + 1) rank.toNat then rest
                     else st.freeLists k })
               idx rank.toNat) := by
          simp only [alloc_pages, if_neg hvalid, if_neg (by omega : ¬ scanLoop st
            (MAX_RANK + 1) rank.toNat > MAX_RANK), hl]
        refine ⟨⟨fun herr => ?_, fun hall => ?_⟩, fun _ => ⟨_, _, halloc⟩⟩
        · rw [halloc] at herr
          exact absurd herr (by simp)
        · exact absurd (hall _ hge hbig) hne

theorem alloc_error_contract_witness :
    alloc_pages emptyState 0 = (Except.error (-EINVAL), emptyState) ∧
    (alloc_pages emptyState 1).fst = Except.error (-ENOSPC) ∧
    (∃ a st2, alloc_pages msInit 1 = (Except.ok a, st2)) :=
  ⟨(alloc_error_contract emptyState 0).1 (by decide),
   ((alloc_error_contract emptyState 1).2 (by decide) (by decide)).1.mpr
     (fun r _ _ => rfl),
   ((alloc_error_contract msInit 1).2 (by decide) (by decide)).2
     ⟨3, by decide, by decide, by decide⟩⟩

theorem splitLoop_base (rank : Nat) :
    ∀ (cur : Nat) (idx : Int) (st : BuddyState),
      (splitLoop rank cur idx st).baseAddr = st.baseAddr ∧
      (splitLoop rank cur idx st).totalPages = st.totalPages := by
  intro cur
  induction cur with
  | zero => intro idx st; exact ⟨rfl, rfl⟩
  | succ cur ih =>
    intro idx st
    simp only [splitLoop]
    split_ifs with h
    · exact ih idx _
    · exact ⟨rfl, rfl⟩

theorem markAllocated_baseAddr (st : BuddyState) (idx : Int) (rank : Nat) :
    (markAllocated st idx rank).baseAddr = st.baseAddr := rfl

theorem markAllocated_totalPages (st : BuddyState) (idx : Int) (rank : Nat) :
    (markAllocated st idx rank).totalPages = st.totalPages := rfl

theorem markAllocated_pageRank (st : BuddyState) (idx : Int) (rank : Nat) (i : Int) :
    (markAllocated st idx rank).pageRank i =
      if idx ≤ i ∧ i < idx + (pages_for_rank rank : Int) then rank
      else st.pageRank i := rfl

theorem markAllocated_pageAllocated (st : BuddyState) (idx : Int) (rank : Nat) (i : Int) :
    (markAllocated st idx rank).pageAllocated i =
      if idx ≤ i ∧ i < idx + (pages_for_rank rank : Int) then true
      else st.pageAllocated i := rfl

theorem alloc_success_shape (st : BuddyState) (rank a : Int) (st2 : BuddyState)
    (h1 : 1 ≤ rank) (h2 : rank ≤ (MAX_RANK : Int))
    (hsucc : alloc_pages st rank = (Except.ok a, st2)) :
    ∃ idx rest,
      st.freeLists (scanLoop st (MAX_RANK + 1) rank.toNat) = idx :: rest ∧
      scanLoop st (MAX_RANK + 1) rank.toNat ≤ MAX_RANK ∧
      a = st.baseAddr + idx * PAGE_SIZE ∧
      st2 = markAllocated
        (splitLoop rank.toNat (scanLoop st (MAX_RANK + 1) rank.toNat) idx
          { st with freeLists := fun k =>
              if k = scanLoop st (MAX_RANK + 1) rank.toNat then rest
              else st.freeLists k })
        idx rank.toNat := by
  have hvalid : ¬(rank < 1 ∨ rank > (MAX_RANK : Int)) := by omega
  by_cases hbig : scanLoop st (MAX_RANK + 1) rank.toNat > MAX_RANK
  · simp only [alloc_pages, if_neg hvalid, if_pos hbig] at hsucc
    exact absurd (congrArg Prod.fst hsucc) (by simp)
  · push_neg at hbig
    rcases hl : st.freeLists (scanLoop st (MAX_RANK + 1) rank.toNat) with _ | ⟨idx, rest⟩
    · simp only [alloc_pages, if_neg hvalid, if_neg (by omega : ¬ scanLoop st
        (MAX_RANK + 1) rank.toNat > MAX_RANK), hl] at hsucc
      exact absurd (congrArg Prod.fst hsucc) (by simp)
    · simp only [alloc_pages, if_neg hvalid, if_neg (by omega : ¬ scanLoop st
        (MAX_RANK + 1) rank.toNat > MAX_RANK), hl] at hsucc
      have hfst := congrArg Prod.fst hsucc
      have hsnd := congrArg Prod.snd hsucc
      simp only [Prod.fst, Prod.snd] at hfst hsnd
      refine ⟨idx, rest, rfl, hbig, ?_, hsnd.symm⟩
      have : Except.ok (st.baseAddr + idx * PAGE_SIZE) = (Except.ok a : Except Int Int) := hfst
      exact (Except.ok.injEq _ _ ▸ this).symm

/-- C2: for every rank in `[1, MAX_RANK]`, a successful `alloc_pages` from a
state with a well-formed free-list registry (and a block-aligned, positive
base address) returns the address of a block whose pages are all marked
allocated at the requested rank; immediately afterwards `query_ranks` on the
returned address yields the requested rank, and the address is aligned to
`pages_for_rank rank * PAGE_SIZE`. -/
theorem alloc_postcondition (st : BuddyState) (rank a : Int) (st2 : BuddyState)
    (hwf : freeListsWF st) (hb0 : 0 < st.baseAddr)
    (hbal : st.baseAddr % ((pages_for_rank MAX_RANK : Int) * PAGE_SIZE) = 0)
    (h1 : 1 ≤ rank) (h2 : rank ≤ (MAX_RANK : Int))
    (hsucc : alloc_pages st rank = (Except.ok a, st2)) :
    ∃ idx : Int,
      a = st.baseAddr + idx * PAGE_SIZE ∧
      (∀ k : Int, idx ≤ k → k < idx + (pages_for_rank rank.toNat : Int) →
        st2.pageRank k = rank.toNat ∧ st2.pageAllocated k = true) ∧
      (query_ranks st2 a).fst = rank ∧
      a % ((pages_for_rank rank.toNat : Int) * PAGE_SIZE) = 0 := by
  obtain ⟨idx, rest, hl, hsle, ha, hst2⟩ :=
    alloc_success_shape st rank a st2 h1 h2 hsucc
  have hge : rank.toNat ≤ scanLoop st (MAX_RANK + 1) rank.toNat :=
    scanLoop_ge st (MAX_RANK + 1) rank.toNat
  have hmem : idx ∈ st.freeLists (scanLoop st (MAX_RANK + 1) rank.toNat) := by
    rw [hl]; exact List.mem_cons_self idx rest
  have hs1 : 1 ≤ scanLoop st (MAX_RANK + 1) rank.toNat := by omega
  obtain ⟨hidx0, hbound, halign⟩ :=
    hwf (scanLoop st (MAX_RANK + 1) rank.toNat) (by omega) hs1 idx hmem
  have hppos : (1 : Int) ≤ (pages_for_rank rank.toNat : Int) := by
    exact_mod_cast pages_for_rank_pos rank.toNat
  have hspos : (1 : Int) ≤ (pages_for_rank (scanLoop st (MAX_RANK + 1) rank.toNat) : Int) := by
    exact_mod_cast pages_for_rank_pos _
  have hdvd_pow : (pages_for_rank rank.toNat : Int) ∣
      (pages_for_rank (scanLoop st (MAX_RANK + 1) rank.toNat) : Int) := by
    have h := pow_dvd_pow 2 (by omega : rank.toNat - 1 ≤
      scanLoop st (MAX_RANK + 1) rank.toNat - 1)
    exact_mod_cast h
  have halignr : idx % (pages_for_rank rank.toNat : Int) = 0 := by
    have h := Int.emod_emod_of_dvd idx hdvd_pow
    rw [halign, Int.zero_emod] at h
    exact h.symm
  subst hst2
  have hBase :
      (markAllocated
        (splitLoop rank.toNat (scanLoop st (MAX_RANK + 1) rank.toNat) idx
          { st with freeLists := fun k =>
              if k = scanLoop st (MAX_RANK + 1) rank.toNat then rest
              else st.freeLists k })
        idx rank.toNat).baseAddr = st.baseAddr := by
    rw [markAllocated_baseAddr]
    exact (splitLoop_base rank.toNat (scanLoop st (MAX_RANK + 1) rank.toNat) idx _).1
  have hTot :
      (markAllocated
        (splitLoop rank.toNat (scanLoop st (MAX_RANK + 1) rank.toNat) idx
          { st with freeLists := fun k =>
              if k = scanLoop st (MAX_RANK + 1) rank.toNat then rest
              else st.freeLists k })
        idx rank.toNat).totalPages = st.totalPages := by
    rw [markAllocated_totalPages]
    exact (splitLoop_base rank.toNat (scanLoop st (MAX_RANK + 1) rank.toNat) idx _).2
  refine ⟨idx, ha, ?_, ?_, ?_⟩
  · intro k hk1 hk2
    rw [markAllocated_pageRank, markAllocated_pageAllocated, if_pos ⟨hk1, hk2⟩,
      if_pos ⟨hk1, hk2⟩]
    exact ⟨rfl, rfl⟩
  · have hPS : PAGE_SIZE = 4096 := rfl
    have hg1 : ¬(a = 0 ∨ a < st.baseAddr ∨
        a ≥ st.baseAddr + st.totalPages * PAGE_SIZE) := by
      rw [ha, hPS] at *
      push_neg
      refine ⟨by nlinarith, by nlinarith, by nlinarith⟩
    have hdiff : a - st.baseAddr = idx * PAGE_SIZE := by rw [ha]; ring
    have hidx2 : (a - st.baseAddr) / PAGE_SIZE = idx := by
      rw [hdiff, hPS, Int.mul_ediv_cancel idx (by norm_num)]
    simp only [query_ranks, hBase, hTot, if_neg hg1, hidx2]
    rw [if_neg (by push_neg; omega : ¬(idx < 0 ∨ idx ≥ st.totalPages)), markAllocated_pageRank,
      if_pos ⟨le_refl idx, by omega⟩]
    exact Int.toNat_of_nonneg (by omega)
  · have hd1 : ((pages_for_rank rank.toNat : Int) * PAGE_SIZE) ∣ st.baseAddr := by
      refine dvd_trans ?_ (Int.dvd_of_emod_eq_zero hbal)
      exact mul_dvd_mul_right
        (by exact_mod_cast pow_dvd_pow 2 (by omega : rank.toNat - 1 ≤ MAX_RANK - 1))
        PAGE_SIZE
    have hd2 : ((pages_for_rank rank.toNat : Int) * PAGE_SIZE) ∣ idx * PAGE_SIZE :=
      mul_dvd_mul_right (Int.dvd_of_emod_eq_zero halignr) PAGE_SIZE
    rw [ha]
    exact Int.emod_eq_zero_of_dvd (dvd_add hd1 hd2)

theorem alloc_postcondition_witness :
    ∃ idx : Int,
      (134217728 : Int) = wfInit.baseAddr + idx * PAGE_SIZE ∧
      (∀ k : Int, idx ≤ k → k < idx + (pages_for_rank (2 : Int).toNat : Int) →
        (alloc_pages wfInit 2).snd.pageRank k = (2 : Int).toNat ∧
        (alloc_pages wfInit 2).snd.pageAllocated k = true) ∧
      (query_ranks (alloc_pages wfInit 2).snd 134217728).fst = 2 ∧
      (134217728 : Int) % ((pages_for_rank (2 : Int).toNat : Int) * PAGE_SIZE) = 0 :=
  alloc_postcondition wfInit 2 134217728 (alloc_pages wfInit 2).snd
    (by decide) (by decide) (by decide) (by decide) (by decide) rfl

theorem allBlocksAux_mem (st : BuddyState) :
    ∀ n b, b ∈ allBlocksAux st n ↔ 1 ≤ b.2 ∧ b.2 ≤ n ∧ b.1 ∈ st.freeLists b.2 := by
  intro n
  induction n with
  | zero =>
    intro b
    simp only [allBlocksAux, List.not_mem_nil, false_iff]
    omega
  | succ n ih =>
    intro b
    simp only [allBlocksAux, List.mem_append, List.mem_map, ih]
    constructor
    · rintro (⟨x, hx, rfl⟩ | ⟨h1, h2, h3⟩)
      · exact ⟨by omega, le_rfl, hx⟩
      · exact ⟨h1, by omega, h3⟩
    · rintro ⟨h1, h2, h3⟩
      rcases Nat.eq_or_lt_of_le h2 with heq | hlt
      · exact Or.inl ⟨b.1, by rw [← heq]; exact h3, by rw [← heq]⟩
      · exact Or.inr ⟨h1, by omega, h3⟩

theorem allBlocksAux_congr (st st' : BuddyState)
    (h : ∀ k, 1 ≤ k → k ≤ MAX_RANK → st'.freeLists k = st.freeLists k) :
    ∀ n, n ≤ MAX_RANK → allBlocksAux st' n = allBlocksAux st n := by
  intro n
  induction n with
  | zero => intro _; rfl
  | succ n ih =>
    intro hn
    simp only [allBlocksAux, ih (by omega), h (n + 1) (by omega) hn]

theorem allBlocksAux_update (st : BuddyState) (cur : Nat) (l' : List Int) (h1 : 1 ≤ cur) :
    ∀ n,
      (cur ≤ n → ∃ P S,
        allBlocksAux st n = P ++ ((st.freeLists cur).map (fun x => (x, cur))) ++ S ∧
        allBlocksAux
          { st with freeLists := fun k => if k = cur then l' else st.freeLists k } n =
          P ++ (l'.map (fun x => (x, cur))) ++ S) ∧
      (n < cur →
        allBlocksAux
          { st with freeLists := fun k => if k = cur then l' else st.freeLists k } n =
          allBlocksAux st n) := by
  intro n
  induction n with
  | zero => exact ⟨fun h => absurd h (by omega), fun _ => rfl⟩
  | succ n ih =>
    obtain ⟨ih1, ih2⟩ := ih
    have hchunk : ∀ m : Nat,
        ({ st with freeLists := fun k => if k = cur then l' else st.freeLists k } :
          BuddyState).freeLists m = if m = cur then l' else st.freeLists m :=
      fun m => rfl
    constructor
    · intro hle
      rcases Nat.eq_or_lt_of_le hle with heq | hlt
      · refine ⟨[], allBlocksAux st n, ?_, ?_⟩
        · simp only [allBlocksAux, List.nil_append, heq]
        · simp only [allBlocksAux, List.nil_append]
          rw [if_pos heq.symm, ih2 (by omega), heq]
      · obtain ⟨P, S, hP, hP'⟩ := ih1 (by omega)
        refine ⟨(st.freeLists (n + 1)).map (fun x => (x, n + 1)) ++ P, S, ?_, ?_⟩
        · simp only [allBlocksAux, hP, List.append_assoc]
        · simp only [allBlocksAux, hP', List.append_assoc]
          rw [if_neg (by omega)]
    · intro hlt
      simp only [allBlocksAux, ih2 (by omega)]
      rw [if_neg (by omega)]

theorem blockDisj_symm : ∀ {b c : Int × Nat}, blockDisj b c → blockDisj c b :=
  fun h => h.symm

theorem blockDisj_symmetric : Symmetric blockDisj :=
  fun _ _ h => blockDisj_symm h

theorem insertFreeBlock_blocks (st : BuddyState) (x : Int) (r : Nat)
    (h1 : 1 ≤ r) (h16 : r ≤ MAX_RANK) :
    ∃ P S, allBlocks st = P ++ S ∧
      allBlocks (insertFreeBlock st x r) = P ++ (x, r) :: S := by
  obtain ⟨P, S, hP, hP'⟩ :=
    (allBlocksAux_update st r (x :: st.freeLists r) h1 MAX_RANK).1 h16
  have hc : allBlocks (insertFreeBlock st x r) =
      allBlocksAux
        { st with freeLists := fun k =>
            if k = r then x :: st.freeLists r else st.freeLists k } MAX_RANK :=
    allBlocksAux_congr _ _ (fun _ _ _ => rfl) MAX_RANK le_rfl
  refine ⟨P, (st.freeLists r).map (fun y => (y, r)) ++ S, by simpa using hP, ?_⟩
  rw [hc, hP']
  simp

theorem removeHead_blocks (st : BuddyState) (cur : Nat) (idx : Int) (rest : List Int)
    (h1 : 1 ≤ cur) (h16 : cur ≤ MAX_RANK) (hl : st.freeLists cur = idx :: rest) :
    ∃ P S, allBlocks st = P ++ (idx, cur) :: S ∧
      allBlocks { st with freeLists := fun k =>
        if k = cur then rest else st.freeLists k } = P ++ S := by
  obtain ⟨P, S, hP, hP'⟩ := (allBlocksAux_update st cur rest h1 MAX_RANK).1 h16
  rw [hl] at hP
  exact ⟨P, rest.map (fun y => (y, cur)) ++ S, by simpa using hP, by simpa using hP'⟩

theorem pairwise_of_removed {P S : List (Int × Nat)} {b : Int × Nat}
    (h : (P ++ b :: S).Pairwise blockDisj) : (P ++ S).Pairwise blockDisj :=
  h.sublist ((List.sublist_cons_self b S).append_left P)

theorem pairwise_of_inserted {P S : List (Int × Nat)} {b : Int × Nat}
    (hdisj : ∀ c ∈ P ++ S, blockDisj b c)
    (h : (P ++ S).Pairwise blockDisj) : (P ++ b :: S).Pairwise blockDisj := by
  rw [List.pairwise_middle (fun hxy => blockDisj_symm hxy)]
  exact List.Pairwise.cons hdisj h

theorem disj_of_pairwise_removed {P S : List (Int × Nat)} {b : Int × Nat}
    (h : (P ++ b :: S).Pairwise blockDisj) :
    ∀ c ∈ P ++ S, blockDisj b c := by
  rw [List.pairwise_middle (fun hxy => blockDisj_symm hxy)] at h
  exact (List.pairwise_cons.mp h).1

theorem blockOK_insertFreeBlock (st : BuddyState) (x : Int) (r : Nat) (b : Int × Nat)
    (hb : blockOK st b) : blockOK (insertFreeBlock st x r) b := by
  refine ⟨hb.1, hb.2.1, fun k hk => ?_⟩
  rw [insertFreeBlock_pageAllocated]
  split_ifs with h
  · rfl
  · exact hb.2.2 k hk

theorem insertFreeBlock_pages_free (st : BuddyState) (x : Int) (r : Nat)
    (k : Nat) (hk : k < pages_for_rank r) :
    (insertFreeBlock st x r).pageAllocated (x + (k : Int)) = false := by
  rw [insertFreeBlock_pageAllocated]
  have hkI : (k : Int) < (pages_for_rank r : Int) := by exact_mod_cast hk
  rw [if_pos ⟨by omega, by omega⟩]

theorem blockOK_self_insertFreeBlock (st : BuddyState) (x : Int) (r : Nat)
    (hx0 : 0 ≤ x) (hxb : x + (pages_for_rank r : Int) ≤ st.totalPages) :
    blockOK (insertFreeBlock st x r) (x, r) :=
  ⟨hx0, hxb, fun k hk => insertFreeBlock_pages_free st x r k hk⟩

theorem blockOK_markAllocated (st : BuddyState) (idx : Int) (r : Nat) (b : Int × Nat)
    (hdisj : blockDisj (idx, r) b) (hb : blockOK st b) :
    blockOK (markAllocated st idx r) b := by
  refine ⟨hb.1, hb.2.1, fun k hk => ?_⟩
  rw [markAllocated_pageAllocated]
  have hkI : (k : Int) < (pages_for_rank b.2 : Int) := by exact_mod_cast hk
  rcases hdisj with h | h
  · rw [if_neg (by push_neg; intro h1; simp only at h; omega)]
    exact hb.2.2 k hk
  · rw [if_neg (by push_neg; intro h1; simp only at h; omega)]
    exact hb.2.2 k hk

theorem freePages_congr (st st' : BuddyState)
    (h : ∀ k, 1 ≤ k → k ≤ MAX_RANK → st'.freeLists k = st.freeLists k) :
    freePages st' = freePages st := by
  unfold freePages allBlocks
  rw [allBlocksAux_congr st st' h MAX_RANK le_rfl]

theorem freePages_insertFreeBlock (st : BuddyState) (x : Int) (r : Nat)
    (h1 : 1 ≤ r) (h16 : r ≤ MAX_RANK) :
    freePages (insertFreeBlock st x r) = freePages st + pages_for_rank r := by
  obtain ⟨P, S, hP, hP'⟩ := insertFreeBlock_blocks st x r h1 h16
  unfold freePages
  rw [hP, hP']
  simp only [List.map_append, List.sum_append, List.map_cons, List.sum_cons]
  omega

theorem BuddyInv_insertFreeBlock (st : BuddyState) (x : Int) (r : Nat)
    (h1 : 1 ≤ r) (h16 : r ≤ MAX_RANK)
    (hx0 : 0 ≤ x) (hxb : x + (pages_for_rank r : Int) ≤ st.totalPages)
    (hdisj : ∀ b ∈ allBlocks st, blockDisj (x, r) b)
    (hInv : BuddyInv st) :
    BuddyInv (insertFreeBlock st x r) ∧
    (∀ b ∈ allBlocks (insertFreeBlock st x r), b = (x, r) ∨ b ∈ allBlocks st) := by
  obtain ⟨P, S, hP, hP'⟩ := insertFreeBlock_blocks st x r h1 h16
  obtain ⟨hA, hB⟩ := hInv
  have hmem : ∀ b ∈ allBlocks (insertFreeBlock st x r), b = (x, r) ∨ b ∈ allBlocks st := by
    intro b hb
    rw [hP'] at hb
    rcases List.mem_append.mp hb with hb | hb
    · exact Or.inr (by rw [hP]; exact List.mem_append.mpr (Or.inl hb))
    · rcases List.mem_cons.mp hb with hb | hb
      · exact Or.inl hb
      · exact Or.inr (by rw [hP]; exact List.mem_append.mpr (Or.inr hb))
  refine ⟨⟨?_, ?_⟩, hmem⟩
  · intro b hb
    rcases hmem b hb with rfl | hb'
    · exact blockOK_self_insertFreeBlock st x r hx0 hxb
    · exact blockOK_insertFreeBlock st x r b (hA b hb')
  · rw [hP']
    refine pairwise_of_inserted ?_ ?_
    · intro c hc
      exact hdisj c (by rw [hP]; exact hc)
    · rw [← hP]; exact hB

theorem BuddyInv_removeHead (st : BuddyState) (cur : Nat) (idx : Int) (rest : List Int)
    (h1 : 1 ≤ cur) (h16 : cur ≤ MAX_RANK) (hl : st.freeLists cur = idx :: rest)
    (hInv : BuddyInv st) :
    BuddyInv { st with freeLists := fun k => if k = cur then rest else st.freeLists k } ∧
    freePages { st with freeLists := fun k => if k = cur then rest else st.freeLists k } +
      pages_for_rank cur = freePages st ∧
    blockOK st (idx, cur) ∧
    (∀ b ∈ allBlocks
      { st with freeLists := fun k => if k = cur then rest else st.freeLists k },
      blockDisj (idx, cur) b ∧ b ∈ allBlocks st) := by
  obtain ⟨P, S, hP, hP'⟩ := removeHead_blocks st cur idx rest h1 h16 hl
  obtain ⟨hA, hB⟩ := hInv
  have hmemS : ∀ b ∈ allBlocks
      { st with freeLists := fun k => if k = cur then rest else st.freeLists k },
      b ∈ allBlocks st := by
    intro b hb
    rw [hP'] at hb
    rw [hP]
    rcases List.mem_append.mp hb with hb | hb
    · exact List.mem_append.mpr (Or.inl hb)
    · exact List.mem_append.mpr (Or.inr (List.mem_cons.mpr (Or.inr hb)))
  refine ⟨⟨?_, ?_⟩, ?_, ?_, ?_⟩
  · intro b hb
    exact hA b (hmemS b hb)
  · rw [hP']
    exact pairwise_of_removed (hP ▸ hB)
  · unfold freePages
    rw [hP, hP']
    simp only [List.map_append, List.sum_append, List.map_cons, List.sum_cons]
    omega
  · have hmem : (idx, cur) ∈ allBlocks st := by
      rw [hP]
      exact List.mem_append.mpr (Or.inr (List.mem_cons.mpr (Or.inl rfl)))
    exact hA (idx, cur) hmem
  · intro b hb
    refine ⟨?_, hmemS b hb⟩
    have hb' : b ∈ P ++ S := by rw [← hP']; exact hb
    exact disj_of_pairwise_removed (hP ▸ hB) b hb'

theorem splitLoop_spec :
    ∀ (cur rank : Nat) (idx : Int) (st : BuddyState),
      1 ≤ rank → rank ≤ cur → cur ≤ MAX_RANK →
      BuddyInv st →
      0 ≤ idx → idx + (pages_for_rank cur : Int) ≤ st.totalPages →
      (∀ k < pages_for_rank cur, st.pageAllocated (idx + (k : Int)) = false) →
      (∀ b ∈ allBlocks st, blockDisj (idx, cur) b) →
      BuddyInv (splitLoop rank cur idx st) ∧
      (splitLoop rank cur idx st).totalPages = st.totalPages ∧
      (splitLoop rank cur idx st).baseAddr = st.baseAddr ∧
      freePages (splitLoop rank cur idx st) + pages_for_rank rank =
        freePages st + pages_for_rank cur ∧
      (∀ k < pages_for_rank rank,
        (splitLoop rank cur idx st).pageAllocated (idx + (k : Int)) = false) ∧
      (∀ b ∈ allBlocks (splitLoop rank cur idx st), blockDisj (idx, rank) b) ∧
      (∀ i, st.pageAllocated i = true →
        (splitLoop rank cur idx st).pageAllocated i = true) := by
  intro cur
  induction cur with
  | zero =>
    intro rank idx st h1 h2
    omega
  | succ cur ih =>
    intro rank idx st h1 h2 h16 hInv hidx0 hbound hfree hdisj
    simp only [splitLoop]
    split_ifs with h
    case neg =>
      have : rank = cur + 1 := by omega
      subst this
      exact ⟨hInv, rfl, rfl, rfl, hfree, hdisj, fun _ ht => ht⟩
    case pos =>
      have hc1 : 1 ≤ cur := by omega
      have hszN : pages_for_rank (cur + 1) = 2 * pages_for_rank cur :=
        pages_for_rank_succ cur hc1
      have hszI : (pages_for_rank (cur + 1) : Int) = 2 * (pages_for_rank cur : Int) := by
        rw [hszN]; push_cast; ring
      have hposI : (1 : Int) ≤ (pages_for_rank cur : Int) := by
        exact_mod_cast pages_for_rank_pos cur
      have hdisjb : ∀ b ∈ allBlocks st,
          blockDisj (idx + (pages_for_rank cur : Int), cur) b := by
        intro b hb
        rcases hdisj b hb with hd | hd
        · exact Or.inl (by simp only [blockDisj] at hd ⊢; omega)
        · exact Or.inr (by simp only [blockDisj] at hd ⊢; omega)
      obtain ⟨hInv1, hmem1⟩ :=
        BuddyInv_insertFreeBlock st (idx + (pages_for_rank cur : Int)) cur hc1
          (by omega) (by omega) (by omega) hdisjb hInv
      have hfree1 : ∀ k < pages_for_rank cur,
          (insertFreeBlock st (idx + (pages_for_rank cur : Int)) cur).pageAllocated
            (idx + (k : Int)) = false := by
        intro k hk
        rw [insertFreeBlock_pageAllocated]
        split_ifs with hin
        · rfl
        · exact hfree k (by omega)
      have hdisj1 : ∀ b ∈ allBlocks
          (insertFreeBlock st (idx + (pages_for_rank cur : Int)) cur),
          blockDisj (idx, cur) b := by
        intro b hb
        rcases hmem1 b hb with rfl | hb'
        · exact Or.inl (by simp only [blockDisj]; omega)
        · rcases hdisj b hb' with hd | hd
          · exact Or.inl (by simp only [blockDisj] at hd ⊢; omega)
          · exact Or.inr (by simp only [blockDisj] at hd ⊢; omega)
      have hmono1 : ∀ i, st.pageAllocated i = true →
          (insertFreeBlock st (idx + (pages_for_rank cur : Int)) cur).pageAllocated i =
            true := by
        intro i ht
        rw [insertFreeBlock_pageAllocated]
        split_ifs with hin
        · exfalso
          have hik : i = idx + (((i - idx).toNat : Nat) : Int) := by omega
          have hklt : (i - idx).toNat < pages_for_rank (cur + 1) := by omega
          have := hfree (i - idx).toNat hklt
          rw [← hik] at this
          rw [this] at ht
          exact Bool.false_ne_true ht
        · exact ht
      obtain ⟨iInv, iTot, iBase, iFp, iFree, iDisj, iMono⟩ :=
        ih rank idx (insertFreeBlock st (idx + (pages_for_rank cur : Int)) cur)
          h1 (by omega) (by omega) hInv1 hidx0
          (by rw [insertFreeBlock_totalPages]; omega)
          hfree1 hdisj1
      refine ⟨iInv, ?_, ?_, ?_, iFree, iDisj, fun i ht => iMono i (hmono1 i ht)⟩
      · rw [iTot, insertFreeBlock_totalPages]
      · rw [iBase, insertFreeBlock_baseAddr]
      · rw [iFp, freePages_insertFreeBlock st _ cur hc1 (by omega)]
        omega

theorem allBlocks_markAllocated (st : BuddyState) (idx : Int) (r : Nat) :
    allBlocks (markAllocated st idx r) = allBlocks st :=
  allBlocksAux_congr _ _ (fun _ _ _ => rfl) MAX_RANK le_rfl

theorem freePages_markAllocated (st : BuddyState) (idx : Int) (r : Nat) :
    freePages (markAllocated st idx r) = freePages st :=
  freePages_congr _ _ (fun _ _ _ => rfl)

theorem BuddyInv_markAllocated (st : BuddyState) (idx : Int) (r : Nat)
    (hdisj : ∀ b ∈ allBlocks st, blockDisj (idx, r) b)
    (hInv : BuddyInv st) : BuddyInv (markAllocated st idx r) := by
  refine ⟨?_, ?_⟩
  · intro b hb
    rw [allBlocks_markAllocated] at hb
    exact blockOK_markAllocated st idx r b (hdisj b hb) (hInv.1 b hb)
  · rw [allBlocks_markAllocated]
    exact hInv.2

theorem allBlocks_nil_of_empty (st : BuddyState)
    (h : ∀ r, 1 ≤ r → r ≤ MAX_RANK → st.freeLists r = []) :
    allBlocks st = [] := by
  rw [List.eq_nil_iff_forall_not_mem]
  intro b hb
  obtain ⟨h1, h2, h3⟩ := (allBlocksAux_mem st MAX_RANK b).mp hb
  rw [h b.2 h1 h2] at h3
  exact List.not_mem_nil b.1 h3

theorem freePages_zero_lists (st : BuddyState) (h : freePages st = 0) :
    ∀ r, 1 ≤ r → r ≤ MAX_RANK → st.freeLists r = [] := by
  intro r h1 h16
  rcases hl : st.freeLists r with _ | ⟨x, rest⟩
  · rfl
  · exfalso
    have hmem : (x, r) ∈ allBlocks st := by
      refine (allBlocksAux_mem st MAX_RANK (x, r)).mpr ⟨h1, h16, ?_⟩
      rw [hl]
      exact List.mem_cons_self x rest
    have hle : pages_for_rank r ≤ freePages st := by
      refine List.single_le_sum (fun y _ => Nat.zero_le y) _ ?_
      exact List.mem_map.mpr ⟨(x, r), hmem, rfl⟩
    have := pages_for_rank_pos r
    omega

theorem alloc_one_fail (st : BuddyState) (h : freePages st = 0) :
    alloc_pages st 1 = (Except.error (-ENOSPC), st) := by
  have hbig : MAX_RANK < scanLoop st (MAX_RANK + 1) (1 : Int).toNat := by
    rw [Int.toNat_one]
    exact scanLoop_all_empty st (MAX_RANK + 1) 1 (by omega)
      (fun r h1 h16 => freePages_zero_lists st h r h1 h16)
  simp only [alloc_pages, if_neg (by decide : ¬((1 : Int) < 1 ∨ (1 : Int) > (MAX_RANK : Int))),
    if_pos hbig]

theorem alloc_one_spec (st : BuddyState) (hInv : BuddyInv st) (hfp : 0 < freePages st) :
    ∃ idx st2, alloc_pages st 1 = (Except.ok (st.baseAddr + idx * PAGE_SIZE), st2) ∧
      st.pageAllocated idx = false ∧
      st2.pageAllocated idx = true ∧
      (∀ i, st.pageAllocated i = true → st2.pageAllocated i = true) ∧
      BuddyInv st2 ∧ freePages st2 + 1 = freePages st ∧
      st2.baseAddr = st.baseAddr ∧ st2.totalPages = st.totalPages := by
  have hne : ¬∀ r, 1 ≤ r → r ≤ MAX_RANK → st.freeLists r = [] := by
    intro hall
    unfold freePages at hfp
    rw [allBlocks_nil_of_empty st hall] at hfp
    simp at hfp
  push_neg at hne
  obtain ⟨r0, hr0a, hr0b, hr0ne⟩ := hne
  have hsle : scanLoop st (MAX_RANK + 1) 1 ≤ MAX_RANK := by
    by_contra hbig
    push_neg at hbig
    exact hr0ne (scanLoop_skipped st (MAX_RANK + 1) 1 r0 hr0a (by omega))
  have hs1 : 1 ≤ scanLoop st (MAX_RANK + 1) 1 := scanLoop_ge st (MAX_RANK + 1) 1
  have hsfound := scanLoop_found st (MAX_RANK + 1) 1 (by omega) hsle
  rcases hl : st.freeLists (scanLoop st (MAX_RANK + 1) 1) with _ | ⟨idx, rest⟩
  · exact absurd hl hsfound
  obtain ⟨hInv1, hfp1, hOK, hrest⟩ :=
    BuddyInv_removeHead st (scanLoop st (MAX_RANK + 1) 1) idx rest hs1 hsle hl hInv
  obtain ⟨hx0, hxb, hxf⟩ := hOK
  dsimp only at hx0 hxb hxf
  obtain ⟨sInv, sTot, sBase, sFp, sFree, sDisj, sMono⟩ :=
    splitLoop_spec (scanLoop st (MAX_RANK + 1) 1) 1 idx
      { st with freeLists := fun k =>
          if k = scanLoop st (MAX_RANK + 1) 1 then rest else st.freeLists k }
      le_rfl hs1 hsle hInv1 hx0 hxb hxf (fun b hb => (hrest b hb).1)
  have h11 : (pages_for_rank 1 : Int) = 1 := rfl
  have halloc : alloc_pages st 1 =
      (Except.ok (st.baseAddr + idx * PAGE_SIZE),
       markAllocated
         (splitLoop 1 (scanLoop st (MAX_RANK + 1) 1) idx
           { st with freeLists := fun k =>
               if k = scanLoop st (MAX_RANK + 1) 1 then rest else st.freeLists k })
         idx 1) := by
    simp only [alloc_pages,
      if_neg (by decide : ¬((1 : Int) < 1 ∨ (1 : Int) > (MAX_RANK : Int))), Int.toNat_one,
      if_neg (by omega : ¬ scanLoop st (MAX_RANK + 1) 1 > MAX_RANK), hl]
  refine ⟨idx, _, halloc, ?_, ?_, ?_, ?_, ?_, ?_, ?_⟩
  · have h0 := hxf 0 (pages_for_rank_pos _)
    simpa using h0
  · rw [markAllocated_pageAllocated, if_pos ⟨le_rfl, by omega⟩]
  · intro i ht
    rw [markAllocated_pageAllocated]
    split_ifs with hin
    · rfl
    · exact sMono i ht
  · exact BuddyInv_markAllocated _ idx 1 sDisj sInv
  · rw [freePages_markAllocated]
    have hp1 : pages_for_rank 1 = 1 := rfl
    omega
  · rw [markAllocated_baseAddr, sBase]
  · rw [markAllocated_totalPages, sTot]

theorem allocRun_spec : ∀ (k : Nat) (st : BuddyState), BuddyInv st → freePages st = k →
    ∃ idxs : List Int,
      (allocRun st k).fst =
        idxs.map (fun i => Except.ok (st.baseAddr + i * PAGE_SIZE)) ∧
      idxs.Nodup ∧ idxs.length = k ∧
      (∀ i ∈ idxs, st.pageAllocated i = false) ∧
      BuddyInv (allocRun st k).snd ∧ freePages (allocRun st k).snd = 0 ∧
      (allocRun st k).snd.baseAddr = st.baseAddr := by
  intro k
  induction k with
  | zero =>
    intro st hInv hfp
    exact ⟨[], rfl, List.nodup_nil, rfl, fun i hi => absurd hi (List.not_mem_nil i),
      hInv, hfp, rfl⟩
  | succ k ih =>
    intro st hInv hfp
    obtain ⟨idx, st2, halloc, hfalse, htrue, hmono, hInv2, hfp2, hbase2, _⟩ :=
      alloc_one_spec st hInv (by omega)
    obtain ⟨idxs, hmap, hnd, hlen, hunalloc, hInv', hfp', hbase'⟩ :=
      ih st2 hInv2 (by omega)
    refine ⟨idx :: idxs, ?_, ?_, ?_, ?_, ?_, ?_, ?_⟩
    · simp only [allocRun, halloc, List.map_cons]
      rw [hmap, hbase2]
    · refine List.Nodup.cons ?_ hnd
      intro hmem
      rw [hunalloc idx hmem] at htrue
      exact Bool.false_ne_true htrue
    · simp [hlen]
    · intro i hi
      rcases List.mem_cons.mp hi with rfl | hi'
      · exact hfalse
      · rcases hb : st.pageAllocated i with _ | _
        · rfl
        · have hcontra := hmono i hb
          rw [hunalloc i hi'] at hcontra
          exact absurd hcontra Bool.false_ne_true
    · simp only [allocRun, halloc]
      exact hInv'
    · simp only [allocRun, halloc]
      exact hfp'
    · simp only [allocRun, halloc]
      rw [hbase', hbase2]

theorem findInitRank_spec : ∀ (R m : Nat), 1 ≤ m → 1 ≤ R →
    1 ≤ findInitRank R m ∧ findInitRank R m ≤ R ∧
    pages_for_rank (findInitRank R m) ≤ m := by
  intro R
  induction R with
  | zero => intro m _ h; omega
  | succ R ih =>
    intro m hm _
    simp only [findInitRank]
    split_ifs with h
    · exact ⟨by omega, le_rfl, h⟩
    · cases R with
      | zero =>
        exact absurd (show pages_for_rank 1 ≤ m by
          unfold pages_for_rank; simpa using hm) h
      | succ R' =>
        obtain ⟨a, b, c⟩ := ih m hm (by omega)
        exact ⟨a, by omega, c⟩

theorem initLoop_spec : ∀ (fuel pg idx : Nat), pg - idx ≤ fuel →
    (∀ b ∈ initLoop fuel pg idx, idx ≤ b.1 ∧ b.1 + pages_for_rank b.2 ≤ pg ∧
      1 ≤ b.2 ∧ b.2 ≤ MAX_RANK) ∧
    (∀ j, idx ≤ j → j < pg → ∃ b ∈ initLoop fuel pg idx,
      b.1 ≤ j ∧ j < b.1 + pages_for_rank b.2) ∧
    List.Pairwise (fun b c : Nat × Nat => b.1 + pages_for_rank b.2 ≤ c.1)
      (initLoop fuel pg idx) ∧
    (idx ≤ pg → ((initLoop fuel pg idx).map (fun b => pages_for_rank b.2)).sum + idx = pg) := by
  intro fuel
  induction fuel with
  | zero =>
    intro pg idx hf
    simp only [initLoop]
    exact ⟨fun b hb => absurd hb (List.not_mem_nil b),
      fun j hj1 hj2 => by omega,
      List.Pairwise.nil,
      fun hle => by simp; omega⟩
  | succ fuel ih =>
    intro pg idx hf
    simp only [initLoop]
    split_ifs with h
    · obtain ⟨hr1, hr16, hrle⟩ :=
        findInitRank_spec MAX_RANK (pg - idx) (by omega) (by norm_num [MAX_RANK])
      have hppos := pages_for_rank_pos (findInitRank MAX_RANK (pg - idx))
      obtain ⟨imem, icov, ipw, isum⟩ :=
        ih pg (idx + pages_for_rank (findInitRank MAX_RANK (pg - idx))) (by omega)
      refine ⟨?_, ?_, ?_, ?_⟩
      · intro b hb
        rcases List.mem_cons.mp hb with rfl | hb'
        · refine ⟨le_refl idx, ?_, hr1, hr16⟩
          change idx + pages_for_rank (findInitRank MAX_RANK (pg - idx)) ≤ pg
          omega
        · obtain ⟨ha, hb2, hc, hd⟩ := imem b hb'
          exact ⟨by omega, hb2, hc, hd⟩
      · intro j hj1 hj2
        by_cases hjh : j < idx + pages_for_rank (findInitRank MAX_RANK (pg - idx))
        · exact ⟨(idx, findInitRank MAX_RANK (pg - idx)),
            List.mem_cons_self _ _, hj1, hjh⟩
        · obtain ⟨b, hbmem, hbl, hbr⟩ := icov j (by omega) hj2
          exact ⟨b, List.mem_cons_of_mem _ hbmem, hbl, hbr⟩
      · refine List.Pairwise.cons ?_ ipw
        intro c hc
        exact (imem c hc).1
      · intro hle
        simp only [List.map_cons, List.sum_cons]
        change pages_for_rank (findInitRank MAX_RANK (pg - idx)) + _ + _ = _
        have := isum (by omega)
        omega
    · exact ⟨fun b hb => absurd hb (List.not_mem_nil b),
        fun j hj1 hj2 => by omega,
        List.Pairwise.nil,
        fun hle => by simp; omega⟩

theorem foldl_insert_spec : ∀ (bs : List (Nat × Nat)) (st : BuddyState),
    BuddyInv st →
    (∀ b ∈ bs, 1 ≤ b.2 ∧ b.2 ≤ MAX_RANK ∧
      (b.1 : Int) + (pages_for_rank b.2 : Int) ≤ st.totalPages) →
    (∀ b ∈ bs, ∀ c ∈ allBlocks st, blockDisj ((b.1 : Int), b.2) c) →
    List.Pairwise (fun b c : Nat × Nat => b.1 + pages_for_rank b.2 ≤ c.1) bs →
    BuddyInv (List.foldl applyInitBlock st bs) ∧
    freePages (List.foldl applyInitBlock st bs) =
      freePages st + (bs.map (fun b => pages_for_rank b.2)).sum ∧
    (List.foldl applyInitBlock st bs).totalPages = st.totalPages ∧
    (List.foldl applyInitBlock st bs).baseAddr = st.baseAddr := by
  intro bs
  induction bs with
  | nil =>
    intro st hInv _ _ _
    exact ⟨hInv, by simp, rfl, rfl⟩
  | cons b bs ih =>
    intro st hInv hbounds hdisj hpw
    obtain ⟨h1, h16, hbd⟩ := hbounds b (List.mem_cons_self b bs)
    obtain ⟨hInv1, hmem1⟩ :=
      BuddyInv_insertFreeBlock st (b.1 : Int) b.2 h1 h16
        (Int.natCast_nonneg b.1) hbd (hdisj b (List.mem_cons_self b bs)) hInv
    have hpwh := List.pairwise_cons.mp hpw
    obtain ⟨iInv, iFp, iTot, iBase⟩ := ih (applyInitBlock st b) hInv1
      (fun b' hb' => by
        obtain ⟨a1, a2, a3⟩ := hbounds b' (List.mem_cons_of_mem b hb')
        exact ⟨a1, a2, a3⟩)
      (fun b' hb' c hc => by
        rcases hmem1 c hc with rfl | hc'
        · have hle := hpwh.1 b' hb'
          refine Or.inr ?_
          have hleI : (b.1 : Int) + (pages_for_rank b.2 : Int) ≤ (b'.1 : Int) := by
            exact_mod_cast hle
          exact hleI
        · exact hdisj b' (List.mem_cons_of_mem b hb') c hc')
      hpwh.2
    simp only [List.foldl_cons]
    refine ⟨iInv, ?_, ?_, ?_⟩
    · rw [iFp, show applyInitBlock st b = insertFreeBlock st (b.1 : Int) b.2 from rfl,
        freePages_insertFreeBlock st (b.1 : Int) b.2 h1 h16, List.map_cons, List.sum_cons]
      omega
    · rw [iTot]; rfl
    · rw [iBase]; rfl

theorem foldl_untouched : ∀ (bs : List (Nat × Nat)) (st : BuddyState) (i : Int),
    (∀ b ∈ bs, ¬((b.1 : Int) ≤ i ∧ i < (b.1 : Int) + (pages_for_rank b.2 : Int))) →
    (List.foldl applyInitBlock st bs).pageRank i = st.pageRank i ∧
    (List.foldl applyInitBlock st bs).pageAllocated i = st.pageAllocated i := by
  intro bs
  induction bs with
  | nil => intro st i _; exact ⟨rfl, rfl⟩
  | cons b bs ih =>
    intro st i hout
    simp only [List.foldl_cons]
    obtain ⟨ir, ia⟩ := ih (applyInitBlock st b) i
      (fun b' hb' => hout b' (List.mem_cons_of_mem b hb'))
    refine ⟨?_, ?_⟩
    · rw [ir]
      show (insertFreeBlock st (b.1 : Int) b.2).pageRank i = st.pageRank i
      rw [insertFreeBlock_pageRank, if_neg (hout b (List.mem_cons_self b bs))]
    · rw [ia]
      show (insertFreeBlock st (b.1 : Int) b.2).pageAllocated i = st.pageAllocated i
      rw [insertFreeBlock_pageAllocated, if_neg (hout b (List.mem_cons_self b bs))]

theorem foldl_mark_spec : ∀ (bs : List (Nat × Nat)) (st : BuddyState) (b : Nat × Nat),
    b ∈ bs →
    List.Pairwise (fun x c : Nat × Nat => x.1 + pages_for_rank x.2 ≤ c.1) bs →
    ∀ i : Int, (b.1 : Int) ≤ i → i < (b.1 : Int) + (pages_for_rank b.2 : Int) →
      (List.foldl applyInitBlock st bs).pageRank i = b.2 ∧
      (List.foldl applyInitBlock st bs).pageAllocated i = false := by
  intro bs
  induction bs with
  | nil => intro st b hb; exact absurd hb (List.not_mem_nil b)
  | cons c bs ih =>
    intro st b hb hpw i hi1 hi2
    simp only [List.foldl_cons]
    have hpwh := List.pairwise_cons.mp hpw
    rcases List.mem_cons.mp hb with rfl | hb'
    · obtain ⟨ur, ua⟩ := foldl_untouched bs (applyInitBlock st b) i
        (fun b' hb' => by
          have hle := hpwh.1 b' hb'
          have hleI : (b.1 : Int) + (pages_for_rank b.2 : Int) ≤ (b'.1 : Int) := by
            exact_mod_cast hle
          push_neg
          intro hc
          omega)
      refine ⟨?_, ?_⟩
      · rw [ur]
        show (insertFreeBlock st (b.1 : Int) b.2).pageRank i = b.2
        rw [insertFreeBlock_pageRank, if_pos ⟨hi1, hi2⟩]
      · rw [ua]
        show (insertFreeBlock st (b.1 : Int) b.2).pageAllocated i = false
        rw [insertFreeBlock_pageAllocated, if_pos ⟨hi1, hi2⟩]
    · exact ih (applyInitBlock st c) b hb' hpwh.2 i hi1 hi2

theorem foldl_lists_mono : ∀ (bs : List (Nat × Nat)) (st : BuddyState) (x : Int) (r : Nat),
    x ∈ st.freeLists r → x ∈ (List.foldl applyInitBlock st bs).freeLists r := by
  intro bs
  induction bs with
  | nil => intro st x r h; exact h
  | cons b bs ih =>
    intro st x r h
    simp only [List.foldl_cons]
    refine ih (applyInitBlock st b) x r ?_
    show x ∈ (insertFreeBlock st (b.1 : Int) b.2).freeLists r
    rw [insertFreeBlock_freeLists]
    split_ifs with hr
    · rw [hr] at h
      exact List.mem_cons_of_mem _ h
    · exact h

theorem foldl_mem_lists : ∀ (bs : List (Nat × Nat)) (st : BuddyState) (b : Nat × Nat),
    b ∈ bs → ((b.1 : Int)) ∈ (List.foldl applyInitBlock st bs).freeLists b.2 := by
  intro bs
  induction bs with
  | nil => intro st b hb; exact absurd hb (List.not_mem_nil b)
  | cons c bs ih =>
    intro st b hb
    simp only [List.foldl_cons]
    rcases List.mem_cons.mp hb with rfl | hb'
    · refine foldl_lists_mono bs (applyInitBlock st b) (b.1 : Int) b.2 ?_
      show (b.1 : Int) ∈ (insertFreeBlock st (b.1 : Int) b.2).freeLists b.2
      rw [insertFreeBlock_freeLists, if_pos rfl]
      exact List.mem_cons_self _ _
    · exact ih (applyInitBlock st c) b hb'

theorem initCleared_lists_nil (st : BuddyState) (p pg : Int) :
    ∀ r, 1 ≤ r → r ≤ MAX_RANK → (initCleared st p pg).freeLists r = [] := by
  intro r _ h16
  show (if r ≤ MAX_RANK then [] else st.freeLists r) = []
  rw [if_pos h16]

theorem init_establish (st0 : BuddyState) (base : Int) (n : Nat) (h1 : 1 ≤ n) :
    BuddyInv (init_page st0 base (n : Int)).snd ∧
    freePages (init_page st0 base (n : Int)).snd = n ∧
    (init_page st0 base (n : Int)).snd.totalPages = (n : Int) ∧
    (init_page st0 base (n : Int)).snd.baseAddr = base := by
  have htn : ((n : Int)).toNat = n := by simp
  have hsnd : (init_page st0 base (n : Int)).snd =
      List.foldl applyInitBlock (initCleared st0 base (n : Int)) (initLoop n n 0) := by
    show List.foldl applyInitBlock (initCleared st0 base (n : Int))
      (initLoop ((n : Int)).toNat ((n : Int)).toNat 0) = _
    rw [htn]
  have hnil : allBlocks (initCleared st0 base (n : Int)) = [] :=
    allBlocks_nil_of_empty _ (initCleared_lists_nil st0 base (n : Int))
  have hInvc : BuddyInv (initCleared st0 base (n : Int)) := by
    refine ⟨?_, ?_⟩
    · rw [hnil]; exact fun b hb => absurd hb (List.not_mem_nil b)
    · rw [hnil]; exact List.Pairwise.nil
  have hfpc : freePages (initCleared st0 base (n : Int)) = 0 := by
    unfold freePages
    rw [hnil]
    rfl
  obtain ⟨tmem, tcov, tpw, tsum⟩ := initLoop_spec n n 0 (by omega)
  obtain ⟨fInv, fFp, fTot, fBase⟩ :=
    foldl_insert_spec (initLoop n n 0) (initCleared st0 base (n : Int)) hInvc
      (fun b hb => by
        obtain ⟨_, hb2, hc, hd⟩ := tmem b hb
        refine ⟨hc, hd, ?_⟩
        show (b.1 : Int) + (pages_for_rank b.2 : Int) ≤ (n : Int)
        exact_mod_cast hb2)
      (fun b hb c hc => by rw [hnil] at hc; exact absurd hc (List.not_mem_nil c))
      tpw
  rw [hsnd]
  refine ⟨fInv, ?_, fTot, fBase⟩
  rw [fFp, hfpc]
  have := tsum (by omega)
  omega

/-- C7: exhaustion.  For every `N` with `1 ≤ N ≤ MAX_PAGES`, after
`init(base, N)` a run of `N` `alloc_pages(1)` calls returns `N` distinct page
addresses (every call succeeds), and the `(N+1)`-th call fails with
`-ENOSPC`. -/
theorem alloc_exhaustion (st0 : BuddyState) (base : Int) (n : Nat)
    (h1 : 1 ≤ n) (hmax : n ≤ MAX_PAGES) :
    ∃ addrs : List Int,
      (allocRun (init_page st0 base (n : Int)).snd n).fst = addrs.map Except.ok ∧
      addrs.Nodup ∧ addrs.length = n ∧
      (alloc_pages (allocRun (init_page st0 base (n : Int)).snd n).snd 1).fst =
        Except.error (-ENOSPC) := by
  have hforce : 0 ≤ (MAX_PAGES : Int) - (n : Int) := by
    have := hmax
    omega
  obtain ⟨hInv, hfp, _, _⟩ := init_establish st0 base n h1
  obtain ⟨idxs, hmap, hnd, hlen, _, _, hfp', _⟩ :=
    allocRun_spec n (init_page st0 base (n : Int)).snd hInv hfp
  refine ⟨idxs.map (fun i => (init_page st0 base (n : Int)).snd.baseAddr + i * PAGE_SIZE),
    ?_, ?_, ?_, ?_⟩
  · rw [hmap, List.map_map]
    rfl
  · refine List.Nodup.map ?_ hnd
    intro a b hab
    dsimp only at hab
    have hPS : PAGE_SIZE = 4096 := rfl
    rw [hPS] at hab
    omega
  · simp [hlen]
  · rw [alloc_one_fail _ hfp']

theorem alloc_exhaustion_witness :
    1 ≤ 3 ∧ 3 ≤ MAX_PAGES ∧
    ∃ addrs : List Int,
      (allocRun (init_page emptyState 65536 ((3 : Nat) : Int)).snd 3).fst =
        addrs.map Except.ok ∧
      addrs.Nodup ∧ addrs.length = 3 ∧
      (alloc_pages (allocRun (init_page emptyState 65536 ((3 : Nat) : Int)).snd 3).snd
        1).fst = Except.error (-ENOSPC) :=
  ⟨by decide, by decide, alloc_exhaustion emptyState 65536 3 (by decide) (by decide)⟩

theorem bitRanks_zero : bitRanks 0 = [] := by
  rw [bitRanks]

theorem findInitRank_log2 : ∀ (R m : Nat), 1 ≤ m → m < 2 ^ R →
    findInitRank R m = Nat.log2 m + 1 := by
  intro R
  induction R with
  | zero =>
    intro m hm hlt
    simp only [pow_zero] at hlt
    omega
  | succ R ih =>
    intro m hm hlt
    have hpg : pages_for_rank (R + 1) = 2 ^ R := rfl
    simp only [findInitRank, hpg]
    split_ifs with h
    · have hlog : Nat.log2 m = R := by
        rw [Nat.log2_eq_log_two]
        exact Nat.log_eq_of_pow_le_of_lt_pow h hlt
      omega
    · exact ih m hm (by omega)

theorem initLoop_ranks : ∀ (fuel pg idx : Nat), pg - idx ≤ fuel → pg ≤ MAX_PAGES →
    (initLoop fuel pg idx).map Prod.snd = bitRanks (pg - idx) := by
  intro fuel
  induction fuel with
  | zero =>
    intro pg idx hf _
    have h0 : pg - idx = 0 := by omega
    rw [h0, bitRanks_zero]
    rfl
  | succ fuel ih =>
    intro pg idx hf hmax
    simp only [initLoop]
    split_ifs with h
    · have hm1 : 1 ≤ pg - idx := by omega
      have hpow : (2 : Nat) ^ MAX_RANK = 65536 := by norm_num [MAX_RANK]
      have hmp : MAX_PAGES = 32768 := rfl
      have hr := findInitRank_log2 MAX_RANK (pg - idx) hm1 (by omega)
      have hlow : 2 ^ Nat.log2 (pg - idx) ≤ pg - idx := by
        rw [Nat.log2_eq_log_two]
        exact Nat.pow_log_le_self 2 (by omega)
      have hLpos : 1 ≤ 2 ^ Nat.log2 (pg - idx) := Nat.one_le_two_pow
      have hfuel : pg - (idx + 2 ^ Nat.log2 (pg - idx)) ≤ fuel := by
        obtain ⟨L, hL⟩ : ∃ L, L = 2 ^ Nat.log2 (pg - idx) := ⟨_, rfl⟩
        rw [← hL] at hlow hLpos ⊢
        omega
      have hppg : pages_for_rank (Nat.log2 (pg - idx) + 1) = 2 ^ Nat.log2 (pg - idx) := rfl
      obtain ⟨k, hk⟩ : ∃ k, pg - idx = k + 1 := ⟨pg - idx - 1, by omega⟩
      have hbr : bitRanks (pg - idx) =
          (Nat.log2 (pg - idx) + 1) ::
            bitRanks ((pg - idx) - 2 ^ Nat.log2 (pg - idx)) := by
        conv_lhs => rw [hk, bitRanks]
        rw [← hk]
      rw [hbr, List.map_cons, hr, hppg]
      have hrest := ih pg (idx + 2 ^ Nat.log2 (pg - idx)) hfuel hmax
      have hsub : pg - (idx + 2 ^ Nat.log2 (pg - idx)) =
          (pg - idx) - 2 ^ Nat.log2 (pg - idx) := by
        obtain ⟨L, hL⟩ : ∃ L, L = 2 ^ Nat.log2 (pg - idx) := ⟨_, rfl⟩
        rw [← hL] at hlow hLpos ⊢
        omega
      rw [hsub] at hrest
      rw [hrest]
    · have h0 : pg - idx = 0 := by omega
      rw [h0, bitRanks_zero]
      rfl

/-- C5: initializer decomposition.  For every `page_count` in
`[1, MAX_PAGES]`, the ranks of the blocks emitted by `init_page`'s greedy
largest-first loop, in emission order, are exactly the set bits of
`page_count` from most- to least-significant (`bitRanks`, modelled from the
spec); each emitted block is linked into its rank's free list of the
resulting state and all its pages are marked free at that rank. -/
theorem init_decomposition_bits (st0 : BuddyState) (base : Int) (n : Nat)
    (h1 : 1 ≤ n) (hmax : n ≤ MAX_PAGES) :
    (initLoop n n 0).map Prod.snd = bitRanks n ∧
    ∀ b ∈ initLoop n n 0,
      ((b.1 : Int)) ∈ (init_page st0 base (n : Int)).snd.freeLists b.2 ∧
      ∀ i : Int, (b.1 : Int) ≤ i → i < (b.1 : Int) + (pages_for_rank b.2 : Int) →
        (init_page st0 base (n : Int)).snd.pageRank i = b.2 ∧
        (init_page st0 base (n : Int)).snd.pageAllocated i = false := by
  have hsnd : (init_page st0 base (n : Int)).snd =
      List.foldl applyInitBlock (initCleared st0 base (n : Int)) (initLoop n n 0) := by
    show List.foldl applyInitBlock _ (initLoop ((n : Int)).toNat ((n : Int)).toNat 0) = _
    rw [show ((n : Int)).toNat = n by simp]
  obtain ⟨tmem, tcov, tpw, tsum⟩ := initLoop_spec n n 0 (by omega)
  have hranks := initLoop_ranks n n 0 (by omega) hmax
  rw [Nat.sub_zero] at hranks
  refine ⟨hranks, fun b hb => ⟨?_, fun i hi1 hi2 => ?_⟩⟩
  · rw [hsnd]
    exact foldl_mem_lists _ _ b hb
  · rw [hsnd]
    exact foldl_mark_spec _ _ b hb tpw i hi1 hi2

theorem init_decomposition_bits_witness :
    1 ≤ 6 ∧ 6 ≤ MAX_PAGES ∧
    ((initLoop 6 6 0).map Prod.snd = bitRanks 6 ∧
     ∀ b ∈ initLoop 6 6 0,
      ((b.1 : Int)) ∈ (init_page emptyState 65536 ((6 : Nat) : Int)).snd.freeLists b.2 ∧
      ∀ i : Int, (b.1 : Int) ≤ i → i < (b.1 : Int) + (pages_for_rank b.2 : Int) →
        (init_page emptyState 65536 ((6 : Nat) : Int)).snd.pageRank i = b.2 ∧
        (init_page emptyState 65536 ((6 : Nat) : Int)).snd.pageAllocated i = false) :=
  ⟨by decide, by decide, init_decomposition_bits emptyState 65536 6 (by decide) (by decide)⟩

theorem splitLoop_pageRank_bounds : ∀ (cur rank : Nat) (idx : Int) (st : BuddyState)
    (i : Int), 1 ≤ rank → cur ≤ MAX_RANK →
    1 ≤ st.pageRank i → st.pageRank i ≤ MAX_RANK →
    1 ≤ (splitLoop rank cur idx st).pageRank i ∧
    (splitLoop rank cur idx st).pageRank i ≤ MAX_RANK := by
  intro cur
  induction cur with
  | zero => intro rank idx st i _ _ ha hb; exact ⟨ha, hb⟩
  | succ cur ih =>
    intro rank idx st i h1 h16 ha hb
    simp only [splitLoop]
    split_ifs with h
    · refine ih rank idx _ i h1 (by omega) ?_ ?_
      · rw [insertFreeBlock_pageRank]
        split_ifs with hin
        · omega
        · exact ha
      · rw [insertFreeBlock_pageRank]
        split_ifs with hin
        · omega
        · exact hb
    · exact ⟨ha, hb⟩

theorem mergeLoop_rank_le (fuel : Nat) : ∀ (st : BuddyState) (idx : Int) (rank : Nat),
    rank ≤ MAX_RANK → (mergeLoop fuel st idx rank).2.1 ≤ MAX_RANK := by
  induction fuel with
  | zero => intro st idx rank h; exact h
  | succ fuel ih =>
    intro st idx rank h
    simp only [mergeLoop]
    split_ifs with g1 g2 g3 g4 g5 <;> first | exact h | exact ih _ _ _ (by omega)

theorem alloc_rankMapOK (st : BuddyState) (rank : Int) (hOK : rankMapOK st) :
    rankMapOK (alloc_pages st rank).snd := by
  by_cases hval : rank < 1 ∨ rank > (MAX_RANK : Int)
  · simp only [alloc_pages, if_pos hval]
    exact hOK
  · by_cases hbig : scanLoop st (MAX_RANK + 1) rank.toNat > MAX_RANK
    · simp only [alloc_pages, if_neg hval, if_pos hbig]
      exact hOK
    · rcases hl : st.freeLists (scanLoop st (MAX_RANK + 1) rank.toNat) with _ | ⟨idx, rest⟩
      · simp only [alloc_pages, if_neg hval, if_neg hbig, hl]
        exact hOK
      · simp only [alloc_pages, if_neg hval, if_neg hbig, hl]
        intro k hk
        have htot : (markAllocated
            (splitLoop rank.toNat (scanLoop st (MAX_RANK + 1) rank.toNat) idx
              { st with freeLists := fun j =>
                  if j = scanLoop st (MAX_RANK + 1) rank.toNat then rest
                  else st.freeLists j })
            idx rank.toNat).totalPages = st.totalPages := by
          rw [markAllocated_totalPages]
          exact (splitLoop_base rank.toNat (scanLoop st (MAX_RANK + 1) rank.toNat) idx _).2
        rw [htot] at hk
        rw [markAllocated_pageRank]
        split_ifs with hin
        · constructor <;> omega
        · exact splitLoop_pageRank_bounds (scanLoop st (MAX_RANK + 1) rank.toNat)
            rank.toNat idx _ ((k : Nat) : Int) (by omega) (by omega)
            (hOK k hk).1 (hOK k hk).2

theorem return_rankMapOK (st : BuddyState) (p : Int) (hOK : rankMapOK st) :
    rankMapOK (return_pages st p).snd := by
  simp only [return_pages]
  split_ifs with g1 g2 g3 g4 g5
  · exact hOK
  · exact hOK
  · exact hOK
  · exact hOK
  · exact hOK
  · intro k hk
    obtain ⟨hB, hT, hR, hA⟩ :=
      mergeLoop_preserves MAX_RANK st ((p - st.baseAddr) / PAGE_SIZE)
        (st.pageRank ((p - st.baseAddr) / PAGE_SIZE))
    have hrk1 : 1 ≤ st.pageRank ((p - st.baseAddr) / PAGE_SIZE) := by omega
    have hpos : (1 : Int) ≤ (pages_for_rank
        (st.pageRank ((p - st.baseAddr) / PAGE_SIZE)) : Int) := by
      exact_mod_cast pages_for_rank_pos _
    have hfin1 := (mergeLoop_contains MAX_RANK st ((p - st.baseAddr) / PAGE_SIZE)
      ((p - st.baseAddr) / PAGE_SIZE) (st.pageRank ((p - st.baseAddr) / PAGE_SIZE))
      hrk1 le_rfl (by omega)).1
    have hfin16 := mergeLoop_rank_le MAX_RANK st ((p - st.baseAddr) / PAGE_SIZE)
      (st.pageRank ((p - st.baseAddr) / PAGE_SIZE)) (by omega)
    have htot : (insertFreeBlock
        (mergeLoop MAX_RANK st ((p - st.baseAddr) / PAGE_SIZE)
          (st.pageRank ((p - st.baseAddr) / PAGE_SIZE))).2.2
        (mergeLoop MAX_RANK st ((p - st.baseAddr) / PAGE_SIZE)
          (st.pageRank ((p - st.baseAddr) / PAGE_SIZE))).1
        (mergeLoop MAX_RANK st ((p - st.baseAddr) / PAGE_SIZE)
          (st.pageRank ((p - st.baseAddr) / PAGE_SIZE))).2.1).totalPages =
        st.totalPages := by
      rw [insertFreeBlock_totalPages]
      exact hT
    rw [htot] at hk
    rw [insertFreeBlock_pageRank]
    split_ifs with hin
    · exact ⟨hfin1, hfin16⟩
    · have : (mergeLoop MAX_RANK st ((p - st.baseAddr) / PAGE_SIZE)
          (st.pageRank ((p - st.baseAddr) / PAGE_SIZE))).2.2.pageRank ((k : Nat) : Int) =
          st.pageRank ((k : Nat) : Int) := by rw [hR]
      rw [this]
      exact hOK k hk

theorem init_rankMapOK (st0 : BuddyState) (base : Int) (n : Nat) (h1 : 1 ≤ n) :
    rankMapOK (init_page st0 base (n : Int)).snd := by
  have hsnd : (init_page st0 base (n : Int)).snd =
      List.foldl applyInitBlock (initCleared st0 base (n : Int)) (initLoop n n 0) := by
    show List.foldl applyInitBlock _ (initLoop ((n : Int)).toNat ((n : Int)).toNat 0) = _
    rw [show ((n : Int)).toNat = n by simp]
  obtain ⟨tmem, tcov, tpw, _⟩ := initLoop_spec n n 0 (by omega)
  intro k hk
  rw [hsnd] at hk ⊢
  have htot : (List.foldl applyInitBlock (initCleared st0 base (n : Int))
      (initLoop n n 0)).totalPages = (n : Int) :=
    (foldl_applyInitBlock_base _ _).2
  rw [htot] at hk
  have hkn : k < n := by simpa using hk
  obtain ⟨b, hbmem, hbl, hbr⟩ := tcov k (Nat.zero_le k) hkn
  obtain ⟨_, _, hc, hd⟩ := tmem b hbmem
  have hmark := foldl_mark_spec (initLoop n n 0) (initCleared st0 base (n : Int)) b hbmem
    tpw ((k : Nat) : Int) (by exact_mod_cast hbl) (by exact_mod_cast hbr)
  rw [hmark.1]
  exact ⟨hc, hd⟩

theorem query_ranks_range (st : BuddyState) (p : Int) (hOK : rankMapOK st)
    (hp0 : p ≠ 0) (hp1 : st.baseAddr ≤ p)
    (hp2 : p < st.baseAddr + st.totalPages * PAGE_SIZE) :
    1 ≤ (query_ranks st p).fst ∧ (query_ranks st p).fst ≤ (MAX_RANK : Int) := by
  have hPS : PAGE_SIZE = 4096 := rfl
  rw [hPS] at hp2
  have hg1 : ¬(p = 0 ∨ p < st.baseAddr ∨
      p ≥ st.baseAddr + st.totalPages * PAGE_SIZE) := by
    rw [hPS]
    push_neg
    exact ⟨hp0, by omega, by omega⟩
  have hidx0 : 0 ≤ (p - st.baseAddr) / PAGE_SIZE := by rw [hPS]; omega
  have hidxlt : (p - st.baseAddr) / PAGE_SIZE < st.totalPages := by rw [hPS]; omega
  have hg2 : ¬((p - st.baseAddr) / PAGE_SIZE < 0 ∨
      (p - st.baseAddr) / PAGE_SIZE ≥ st.totalPages) := by
    push_neg
    exact ⟨hidx0, hidxlt⟩
  simp only [query_ranks, if_neg hg1, if_neg hg2]
  have hcast : ((((p - st.baseAddr) / PAGE_SIZE).toNat : Nat) : Int) =
      (p - st.baseAddr) / PAGE_SIZE := Int.toNat_of_nonneg hidx0
  have hk := hOK ((p - st.baseAddr) / PAGE_SIZE).toNat (by omega)
  rw [hcast] at hk
  exact ⟨by exact_mod_cast hk.1, by exact_mod_cast hk.2⟩

/-- C10: after `init_page` with a page count in `[1, MAX_PAGES]` every managed
page's `page_rank_map` entry lies in `[1, MAX_RANK]`; `alloc_pages` and
`return_pages` preserve this property in every state; consequently
`query_ranks` on any in-region address of such a state returns a value in
`[1, MAX_RANK]`. -/
theorem rank_map_range_invariant :
    (∀ (st0 : BuddyState) (base : Int) (n : Nat), 1 ≤ n → n ≤ MAX_PAGES →
      rankMapOK (init_page st0 base (n : Int)).snd) ∧
    (∀ (st : BuddyState) (rank : Int), rankMapOK st →
      rankMapOK (alloc_pages st rank).snd) ∧
    (∀ (st : BuddyState) (p : Int), rankMapOK st →
      rankMapOK (return_pages st p).snd) ∧
    (∀ (st : BuddyState) (p : Int), rankMapOK st → p ≠ 0 → st.baseAddr ≤ p →
      p < st.baseAddr + st.totalPages * PAGE_SIZE →
      1 ≤ (query_ranks st p).fst ∧ (query_ranks st p).fst ≤ (MAX_RANK : Int)) :=
  ⟨fun st0 base n h1 _ => init_rankMapOK st0 base n h1,
   alloc_rankMapOK, return_rankMapOK,
   fun st p hOK hp0 hp1 hp2 => query_ranks_range st p hOK hp0 hp1 hp2⟩

theorem rank_map_range_invariant_witness :
    rankMapOK (init_page emptyState 65536 ((4 : Nat) : Int)).snd ∧
    rankMapOK (alloc_pages msInit 1).snd ∧
    rankMapOK (return_pages msA1.snd 65536).snd ∧
    (1 ≤ (query_ranks msInit 65536).fst ∧
      (query_ranks msInit 65536).fst ≤ (MAX_RANK : Int)) :=
  ⟨rank_map_range_invariant.1 emptyState 65536 4 (by decide) (by decide),
   rank_map_range_invariant.2.1 msInit 1 (by decide),
   rank_map_range_invariant.2.2.1 msA1.snd 65536 (by decide),
   rank_map_range_invariant.2.2.2 msInit 65536 (by decide) (by decide) (by decide)
     (by decide)⟩
